import Mathlib

/-!
Verification of the Fibonacci heap of `src/fibheap.c` (and the identical
inline version in `include/fibheap.h`).

Two embeddings are used:

* `FibM`: a functional forest model.  A heap is a list of rooted trees; the
  head of the root list is the node the C code reaches through
  `GET_MIN_NODE` (the C root list is circular with the minimum first, so the
  Lean list is exactly the traversal order starting at `root_list.next`).
  The C `degree` field always equals the length of the child list (`link`
  increments it when prepending a child, `cut` decrements it when removing
  one, nothing else writes the low bits), so the model reads
  `children.length` where the C reads `GET_DEGREE`.  The mark bit, which the
  C packs into the top bit of `degree`, is a separate `Bool` field.
  Nodes inside a heap are addressed by a path: the index of their root in
  the root list followed by the child indices leading down to the node.

* `FibP`: a pointer-level model of the `list.h` cells, used for the claims
  about the raw link fields of an extracted node and about
  `fibheap_minimum` on an empty heap, which the forest model cannot
  express.  Every `struct list_head` cell gets an address; `nxt`/`prv` are
  the memory.  Node `i` owns the cell `listA i` (its `list` member) and
  `childA i` (its `child` member); the heap's `root_list` cell is `rootA`.
-/

set_option autoImplicit false

namespace FibM

variable {α : Type}

/-- A heap node: `value`, the mark bit, and the list of children (most
recently linked child first, matching `list_add` into `x->child`). -/
inductive FibTree (α : Type) : Type where
  | node (value : α) (mark : Bool) (children : List (FibTree α))
  deriving Repr

def FibTree.value : FibTree α → α
  | .node v _ _ => v

def FibTree.mark : FibTree α → Bool
  | .node _ m _ => m

def FibTree.children : FibTree α → List (FibTree α)
  | .node _ _ cs => cs

/-- `GET_DEGREE`: the C keeps `degree` equal to the child-list length. -/
def FibTree.degree (t : FibTree α) : Nat := t.children.length


mutual

/-- All values in a tree (root first, then children in order). -/
def valuesT : FibTree α → List α
  | .node v _ cs => v :: valuesL cs

/-- All values in a forest. -/
def valuesL : List (FibTree α) → List α
  | [] => []
  | t :: ts => valuesT t ++ valuesL ts

end


/-- The heap: root list (head = `GET_MIN_NODE`), comparator, node count. -/
structure Fibheap (α : Type) : Type where
  roots : List (FibTree α)
  cmp : α → α → Int
  n : Nat

/-- `make_fibheap`. -/
def make_fibheap (cmp : α → α → Int) : Fibheap α := ⟨[], cmp, 0⟩

/-- `fibheap_is_empty`: tests the root list, not the count. -/
def fibheap_is_empty (h : Fibheap α) : Bool := h.roots.isEmpty

/-- `fibheap_insert` of a fresh node made by `make_fibheap_node v`
(no parent, no children, degree 0, mark clear).  Empty heap: insert at the
head.  Otherwise insert at the tail and move to the head when the new value
outranks the current minimum. -/
def fibheap_insert (h : Fibheap α) (v : α) : Fibheap α :=
  let x : FibTree α := .node v false []
  { h with
    roots :=
      match h.roots with
      | [] => [x]
      | m :: rest => if h.cmp v m.value < 0 then x :: m :: rest else (m :: rest) ++ [x]
    n := h.n + 1 }

/-- `fibheap_minimum` on the forest model: the head of the root list.
(The C version returns `container_of(root_list.next)` unconditionally; its
behaviour on an empty heap is covered by the pointer model `FibP`.) -/
def fibheap_minimum (h : Fibheap α) : Option (FibTree α) := h.roots.head?

/-- `A[d]` of the consolidation table (absent slots read as `NULL`). -/
def getA (A : List (Option (FibTree α))) (d : Nat) : Option (FibTree α) :=
  A.getD d none

/-- Store into slot `d`, growing the table as needed.  (The C allocates a
fixed table of size `ubdeg(n)+1`; degrees stay within that bound for real
heaps, so the growable table has the same behaviour.) -/
def setA (A : List (Option (FibTree α))) (d : Nat) (x : Option (FibTree α)) :
    List (Option (FibTree α)) :=
  if d < A.length then A.set d x
  else A ++ List.replicate (d - A.length) none ++ [x]

/-- `link(y, x)`: `y` becomes the first child of `x` (`list_add` into
`x->child`), `x.degree` grows by one, `y`'s mark is cleared. -/
def linkT (y x : FibTree α) : FibTree α :=
  .node x.value x.mark (.node y.value false y.children :: x.children)

/-- The inner `while (A[d])` loop of `consolidate`: repeatedly merge the
current root `x` with the same-degree occupant of the table, the comparator
choosing the parent. -/
def whileCollide (cmp : α → α → Int) (A : List (Option (FibTree α)))
    (x : FibTree α) (d : Nat) :
    List (Option (FibTree α)) × FibTree α × Nat :=
  match hA : getA A d with
  | none => (A, x, d)
  | some y =>
    -- `if (h->cmp(y->value, x->value) < 0)` exchange `x` with `y`; `link(y, x)`
    if cmp y.value x.value < 0 then whileCollide cmp (A.set d none) (linkT x y) (d + 1)
    else whileCollide cmp (A.set d none) (linkT y x) (d + 1)
termination_by A.length - d
decreasing_by
  all_goals
    have hd : d < A.length := by
      by_contra hge
      have hnone : A[d]? = none := List.getElem?_eq_none (Nat.le_of_not_lt hge)
      rw [getA, List.getD_eq_getElem?_getD, hnone] at hA
      simp at hA
    simp only [List.length_set]
    omega

/-- The `list_for_each_entry_safe` pass of `consolidate` over the snapshot
of the root list, filling the degree table. -/
def consolidatePass (cmp : α → α → Int) :
    List (FibTree α) → List (Option (FibTree α)) → List (Option (FibTree α))
  | [], A => A
  | x :: xs, A =>
    let r := whileCollide cmp A x x.degree
    consolidatePass cmp xs (setA r.1 r.2.2 (some r.2.1))

/-- One step of the rebuild loop: a surviving table entry is appended at the
tail and moved to the head when it outranks the current minimum. -/
def rebuildStep (cmp : α → α → Int) :
    List (FibTree α) → Option (FibTree α) → List (FibTree α)
  | acc, none => acc
  | [], some t => [t]
  | m :: rest, some t =>
    if cmp t.value m.value < 0 then t :: m :: rest else (m :: rest) ++ [t]

/-- The final loop of `consolidate`: re-create the root list from the table
slots in index order.  (Clearing `parent` is implicit: roots of the forest
have no parent in this model.) -/
def rebuild (cmp : α → α → Int) (A : List (Option (FibTree α))) : List (FibTree α) :=
  A.foldl (rebuildStep cmp) []

/-- `consolidate`, as a function of the root list. -/
def consolidate (cmp : α → α → Int) (ts : List (FibTree α)) : List (FibTree α) :=
  rebuild cmp (consolidatePass cmp ts [])

/-- `fibheap_extract_min`.  Children of the minimum are appended to the root
list in child-list order (each with `parent` cleared and the mark left as it
was), the minimum is unlinked, and the rest is consolidated when non-empty.
The returned tree still carries its (stale) child list, exactly as the C
returns `z` without clearing `z->child`. -/
def fibheap_extract_min (h : Fibheap α) : Option (FibTree α) × Fibheap α :=
  match h.roots with
  | [] => (none, h)
  | z :: rest =>
    let promoted := rest ++ z.children
    (some z,
      { h with
        roots := if promoted.isEmpty then promoted else consolidate h.cmp promoted
        n := h.n - 1 })

/-- `fibheap_union` of two (possibly absent) heaps.  `NULL`/empty operands
return the other operand; otherwise B's root list is spliced at the tail of
A's and B's minimum is moved to the head when it outranks A's. -/
def fibheap_union (heap1 heap2 : Option (Fibheap α)) : Option (Fibheap α) :=
  match heap2 with
  | none => heap1
  | some h2 =>
    if h2.roots.isEmpty then heap1
    else
      match heap1 with
      | none => some h2
      | some h1 =>
        match h1.roots, h2.roots with
        | m1 :: r1, m2 :: r2 =>
          some
            { roots :=
                if h1.cmp m2.value m1.value < 0 then
                  m2 :: ((m1 :: r1) ++ r2)
                else (m1 :: r1) ++ (m2 :: r2)
              cmp := h1.cmp
              n := h1.n + h2.n }
        | [], _ => some h2
        | _, [] => some h1

/-! ### Paths into the forest

The C code addresses nodes by pointer.  The model addresses a node inside a
heap by the index `i` of its root in the root list and the list `is` of
child indices leading down to it. -/

/-- Replace element `j` of a list (no-op when out of range). -/
def modN {β : Type} (f : β → β) : Nat → List β → List β := fun j l =>
  match j, l with
  | _, [] => []
  | 0, b :: bs => f b :: bs
  | j + 1, b :: bs => b :: modN f j bs

/-- Remove element `j` of a list (`list_del` of a known child position). -/
def eraseN {β : Type} : Nat → List β → List β := fun j l =>
  match j, l with
  | _, [] => []
  | 0, _ :: bs => bs
  | j + 1, b :: bs => b :: eraseN j bs

mutual

/-- The subtree at child path `is` below `t`. -/
def getT? : List Nat → FibTree α → Option (FibTree α)
  | [], t => some t
  | j :: is, .node _ _ cs => getL? is j cs

def getL? : List Nat → Nat → List (FibTree α) → Option (FibTree α)
  | _, _, [] => none
  | is, 0, c :: _ => getT? is c
  | is, j + 1, _ :: cs => getL? is j cs

end

mutual

/-- Rewrite the subtree at child path `is` below `t` with `f`. -/
def modT (f : FibTree α → FibTree α) : List Nat → FibTree α → FibTree α
  | [], t => f t
  | j :: is, .node v m cs => .node v m (modL f is j cs)

def modL (f : FibTree α → FibTree α) : List Nat → Nat → List (FibTree α) → List (FibTree α)
  | _, _, [] => []
  | is, 0, c :: cs => modT f is c :: cs
  | is, j + 1, c :: cs => c :: modL f is j cs

end

/-- The node of the heap at root index `i`, child path `is`. -/
def forestGet? (ts : List (FibTree α)) (i : Nat) (is : List Nat) : Option (FibTree α) :=
  match ts.get? i with
  | some t => getT? is t
  | none => none

/-- Rewrite the node of the heap at root index `i`, child path `is`. -/
def forestMod (ts : List (FibTree α)) (i : Nat) (is : List Nat)
    (f : FibTree α → FibTree α) : List (FibTree α) :=
  modN (modT f is) i ts

def setValT (v : α) : FibTree α → FibTree α
  | .node _ m cs => .node v m cs

def setMarkT (b : Bool) : FibTree α → FibTree α
  | .node v _ cs => .node v b cs

def removeChildT (j : Nat) : FibTree α → FibTree α
  | .node v m cs => .node v m (eraseN j cs)

/-- The client-side mutation before `fibheap_decrease`: overwrite the value
of the node at `(i, is)`. -/
def setValAt (ts : List (FibTree α)) (i : Nat) (is : List Nat) (v : α) :
    List (FibTree α) :=
  forestMod ts i is (setValT v)

/-- `SET_MARK` on the node at `(i, is)`. -/
def setMarkAt (ts : List (FibTree α)) (i : Nat) (is : List Nat) : List (FibTree α) :=
  forestMod ts i is (setMarkT true)

/-- `cut(h, x, y)` where `y` sits at `(i, qIs)` and `x` is its child `j`:
remove `x` from `y`'s children (decrementing `y`'s degree), append `x` to
the root list tail, clear `x`'s parent (implicit) and its mark. -/
def cutAt (ts : List (FibTree α)) (i : Nat) (qIs : List Nat) (j : Nat) :
    List (FibTree α) :=
  match forestGet? ts i (qIs ++ [j]) with
  | none => ts
  | some x => forestMod ts i qIs (removeChildT j) ++ [setMarkT false x]

/-- `cascading_cut(h, y)` where `y` sits at root index `i` and REVERSED
child path `isRev` (deepest index first, so the recursion to the parent is
structural).  A root does nothing; a marked non-root is cut and the
recursion continues with its parent; an unmarked non-root is marked. -/
def cascading_cut (ts : List (FibTree α)) (i : Nat) :
    List Nat → List (FibTree α)
  | [] => ts
  | j :: restRev =>
    match forestGet? ts i (restRev.reverse ++ [j]) with
    | none => ts
    | some y =>
      if y.mark then cascading_cut (cutAt ts i restRev.reverse j) i restRev
      else setMarkAt ts i (restRev.reverse ++ [j])

/-- The final two lines of `fibheap_decrease` (and the `BECOME_MIN_NODE` of
`fibheap_delete`): read the current minimum and move the root at index `k`
to the head of the root list when its value `v` outranks it. -/
def minUpdate (cmp : α → α → Int) (ts : List (FibTree α)) (k : Nat) (v : α) :
    List (FibTree α) :=
  match ts with
  | [] => []
  | m :: rest =>
    if cmp v m.value < 0 then
      match (m :: rest).get? k with
      | some x => x :: eraseN k (m :: rest)
      | none => m :: rest
    else m :: rest

/-- `BECOME_MIN_NODE` unconditionally: `list_move` the root at `k` to the
head. -/
def moveFront (ts : List (FibTree α)) (k : Nat) : List (FibTree α) :=
  match ts.get? k with
  | some x => x :: eraseN k ts
  | none => ts

/-- The `min`-update of `fibheap_decrease` in the branch where `x` is still
a non-root (no cut happened).  The C `BECOME_MIN_NODE` would splice the
mid-tree node into the root list leaving its parent pointer and the
parent's degree stale; the tree model detaches the subtree instead.  The
branch is unreachable when the operation is called under its documented
precondition on a well-formed heap (`decrease_wf` below discharges it by
contradiction), so the difference is never exercised. -/
def minUpdateDeep (cmp : α → α → Int) (ts : List (FibTree α)) (i : Nat)
    (is : List Nat) (v : α) : List (FibTree α) :=
  match ts with
  | [] => []
  | m :: rest =>
    if cmp v m.value < 0 then
      match forestGet? (m :: rest) i is, is.getLast? with
      | some x, some j =>
        x :: forestMod (m :: rest) i is.dropLast (removeChildT j)
      | _, _ => m :: rest
    else m :: rest

/-- `fibheap_decrease` on the node at `(i, is)`, with the client's new value
`v` (the C client writes `x->value` before the call; the operation itself
never checks that `v` actually ranks at least as high as before). -/
def fibheap_decrease (h : Fibheap α) (i : Nat) (is : List Nat) (v : α) :
    Fibheap α :=
  let ts0 := setValAt h.roots i is v
  if is.isEmpty then
    -- x is a root: no parent, straight to the min update.
    { h with roots := minUpdate h.cmp ts0 i v }
  else
    match forestGet? ts0 i is.dropLast, is.getLast? with
    | some y, some j =>
      if h.cmp v y.value < 0 then
        -- cut(x, y); cascading_cut(y); then the min update, with x now the
        -- root appended at index |ts0| by the cut.
        let k := ts0.length
        let ts1 := cutAt ts0 i is.dropLast j
        let ts2 := cascading_cut ts1 i is.dropLast.reverse
        { h with roots := minUpdate h.cmp ts2 k v }
      else
        { h with roots := minUpdateDeep h.cmp ts0 i is v }
    | _, _ => h

/-- `fibheap_delete` of the node at `(i, is)`: cut it out if it has a
parent, cascade-cut the parent, force it to the head of the root list, and
extract. -/
def fibheap_delete (h : Fibheap α) (i : Nat) (is : List Nat) : Fibheap α :=
  if is.isEmpty then
    (fibheap_extract_min { h with roots := moveFront h.roots i }).2
  else
    match forestGet? h.roots i is, is.getLast? with
    | some _, some j =>
      let k := h.roots.length
      let ts1 := cutAt h.roots i is.dropLast j
      let ts2 := cascading_cut ts1 i is.dropLast.reverse
      (fibheap_extract_min { h with roots := moveFront ts2 k }).2
    | _, _ => h

/-! ### Driver loops for the sorted-extraction law -/

/-- Insert a list of values in order into a fresh heap. -/
def insertAll (cmp : α → α → Int) (vs : List α) : Fibheap α :=
  vs.foldl fibheap_insert (make_fibheap cmp)

/-- Call `fibheap_extract_min` until it reports an empty heap, collecting
the extracted values.  The fuel only caps the iteration count; with fuel at
least the node count the loop runs until the heap is empty. -/
def extractLoop : Nat → Fibheap α → List α
  | 0, _ => []
  | fuel + 1, h =>
    match fibheap_extract_min h with
    | (none, _) => []
    | (some z, h') => z.value :: extractLoop fuel h'

/-- Extract every node of the heap. -/
def extractAll (h : Fibheap α) : List α :=
  extractLoop (valuesL h.roots).length h

/-! ### Specification-side definitions -/

/-- The consistency assumptions the spec places on the client comparator: a
total preorder whose strict part is the negation of the reversed non-strict
part (`compare(a,b) < 0` means "a strictly outranks b", ties allowed). -/
structure CmpOK (cmp : α → α → Int) : Prop where
  le_trans : ∀ a b c, cmp a b ≤ 0 → cmp b c ≤ 0 → cmp a c ≤ 0
  le_total : ∀ a b, cmp a b ≤ 0 ∨ cmp b a ≤ 0
  not_lt : ∀ a b, ¬ cmp a b < 0 ↔ cmp b a ≤ 0

/-- Heap order of a single tree: every child ranks no higher than its
parent, recursively. -/
inductive OrdT (cmp : α → α → Int) : FibTree α → Prop where
  | mk : ∀ (v : α) (m : Bool) (cs : List (FibTree α)),
      (∀ c ∈ cs, cmp v c.value ≤ 0) → (∀ c ∈ cs, OrdT cmp c) →
      OrdT cmp (.node v m cs)

/-- Heap order of the whole forest. -/
def OrdF (cmp : α → α → Int) (ts : List (FibTree α)) : Prop :=
  ∀ t ∈ ts, OrdT cmp t

/-- The head of the root list ranks no lower than any value in the heap. -/
def HeadMin (cmp : α → α → Int) (ts : List (FibTree α)) : Prop :=
  ∀ m ∈ ts.head?, ∀ w ∈ valuesL ts, cmp m.value w ≤ 0

/-- No root carries the mark bit. -/
def NoMarkedRoot (ts : List (FibTree α)) : Prop :=
  ∀ t ∈ ts, t.mark = false

/-- The heaps reachable from `make_fibheap cmp` through the public API,
`fibheap_decrease` being used only on a valid node and under its documented
precondition (the new value ranks at least as high as the old one). -/
inductive Reachable (cmp : α → α → Int) : Fibheap α → Prop where
  | make : Reachable cmp (make_fibheap cmp)
  | insert (h : Fibheap α) (v : α) :
      Reachable cmp h → Reachable cmp (fibheap_insert h v)
  | extract (h : Fibheap α) :
      Reachable cmp h → Reachable cmp (fibheap_extract_min h).2
  | union (h1 h2 h3 : Fibheap α) :
      Reachable cmp h1 → Reachable cmp h2 →
      fibheap_union (some h1) (some h2) = some h3 → Reachable cmp h3
  | decrease (h : Fibheap α) (i : Nat) (is : List Nat) (v : α) (x : FibTree α) :
      Reachable cmp h → forestGet? h.roots i is = some x →
      cmp v x.value ≤ 0 → Reachable cmp (fibheap_decrease h i is v)
  | delete (h : Fibheap α) (i : Nat) (is : List Nat) (x : FibTree α) :
      Reachable cmp h → forestGet? h.roots i is = some x →
      Reachable cmp (fibheap_delete h i is)

/-- The effect `CascadingCut` is specified to have (spec 4.10): walking up
from `y`, cut every ancestor of the maximal chain that is marked and has a
parent — testing the marks of the ORIGINAL heap — and then either stop at a
root (unchanged) or mark the first unmarked non-root.  `cascading_cut` is
proved equal to this description. -/
def cascadeSpecGo (orig : List (FibTree α)) (ts : List (FibTree α)) (i : Nat) :
    List Nat → List (FibTree α)
  | [] => ts
  | j :: restRev =>
    match forestGet? orig i (restRev.reverse ++ [j]) with
    | none => ts
    | some y =>
      if y.mark then cascadeSpecGo orig (cutAt ts i restRev.reverse j) i restRev
      else setMarkAt ts i (restRev.reverse ++ [j])

/-- The integer comparator used by all witnesses. -/
def intCmp (a b : Int) : Int := a - b

/-! ### A concrete operation sequence (used for the mark-invariant claim)

`insert 1..5; extract_min; delete; decrease; extract_min; extract_min` —
the deleted node is the child `3` of the consolidated tree
`2 → [4 → [5], 3]`, and the decreased node is `5` (lowered to `0`), which
marks its parent `4`.  The final two extractions promote the marked `4` to
the root list, where its mark survives. -/
def c7heap2 : Fibheap Int :=
  (fibheap_extract_min (insertAll intCmp [1, 2, 3, 4, 5])).2

def c7heap3 : Fibheap Int := fibheap_delete c7heap2 0 [1]

def c7heap4 : Fibheap Int := fibheap_decrease c7heap3 0 [0, 0] 0

def c7heap5 : Fibheap Int := (fibheap_extract_min c7heap4).2

def c7heap6 : Fibheap Int := (fibheap_extract_min c7heap5).2

end FibM

namespace FibP

/-!
The pointer-level model of `list.h` plus the parts of `fibheap.c` needed to
run `fibheap_minimum` and `fibheap_extract_min` on the raw cells.

Addresses: `0` is `NULL`; `1` is the heap's own `root_list` cell; node `i`
owns cell `2*i+2` (its `list` member) and cell `2*i+3` (its `child`
member).  `container_of` subtracts a constant offset from a `list`-cell
address, so returning the cell address faithfully encodes the returned
node pointer; `nodeOf?` recovers the node index exactly when the address
really is some node's `list` cell.

The `mark`/`degree` bit-packing of the C is modelled as two fields: the
`FIBHEAP_*_MARK` macros touch only the top bit and the `degree`
increments/decrements touch only the low bits, so the packed word and the
field pair evolve identically (for degrees below `2^31`).

Loops over the circular lists are modelled with an explicit iteration
bound `fuel`; every concrete run below supplies a bound larger than the
length of any list involved, in which case the loop stops exactly where
the C loop does.
-/

variable {α : Type}

/-- The memory and per-node fields. -/
structure St (α : Type) : Type where
  nxt : Nat → Nat
  prv : Nat → Nat
  parent : Nat → Option Nat
  mark : Nat → Bool
  deg : Nat → Nat
  val : Nat → α
  n : Int

def nullA : Nat := 0

/-- Address of the heap's `root_list` cell. -/
def rootA : Nat := 1

/-- Address of node `i`'s `list` cell. -/
def listA (i : Nat) : Nat := 2 * i + 2

/-- Address of node `i`'s `child` cell. -/
def childA (i : Nat) : Nat := 2 * i + 3

/-- `container_of`: the node whose `list` cell sits at address `a`, if any. -/
def nodeOf? (a : Nat) : Option Nat :=
  if 2 ≤ a ∧ a % 2 = 0 then some ((a - 2) / 2) else none

/-- Pointwise memory update. -/
def upd {β : Type} (f : Nat → β) (a : Nat) (v : β) : Nat → β :=
  fun b => if b = a then v else f b

/-- `__list_add(new, prev, next)`. -/
def listAddRaw (st : St α) (nw prev nxt : Nat) : St α :=
  { st with
    prv := upd (upd st.prv nxt nw) nw prev
    nxt := upd (upd st.nxt nw nxt) prev nw }

/-- `list_add`: insert at the head. -/
def list_add (st : St α) (nw head : Nat) : St α :=
  listAddRaw st nw head (st.nxt head)

/-- `list_add_tail`: insert at the tail. -/
def list_add_tail (st : St α) (nw head : Nat) : St α :=
  listAddRaw st nw (st.prv head) head

/-- `list_del`: unlink `entry` by rewiring its neighbours.  The entry's own
`next`/`prev` (and any other stale pointers to it) are left untouched,
exactly as in the C. -/
def list_del (st : St α) (entry : Nat) : St α :=
  { st with
    prv := upd st.prv (st.nxt entry) (st.prv entry)
    nxt := upd st.nxt (st.prv entry) (st.nxt entry) }

def list_empty (st : St α) (head : Nat) : Bool := st.nxt head = head

/-- `list_move`: delete then re-add at the head. -/
def list_move (st : St α) (a head : Nat) : St α :=
  list_add (list_del st a) a head

/-- A blank memory (the C reads no cell before initializing it on the
traces modelled here). -/
def emptySt (d : α) : St α :=
  ⟨fun _ => 0, fun _ => 0, fun _ => none, fun _ => false, fun _ => 0, fun _ => d, 0⟩

/-- `make_fibheap`: `INIT_LIST_HEAD(&heap->root_list)`, `n = 0`. -/
def make_fibheap (st : St α) : St α :=
  { st with nxt := upd st.nxt rootA rootA, prv := upd st.prv rootA rootA, n := 0 }

/-- `make_fibheap_node(value)` allocated as node `i`. -/
def make_fibheap_node (st : St α) (i : Nat) (v : α) : St α :=
  { st with
    parent := upd st.parent i none
    nxt := upd (upd st.nxt (childA i) (childA i)) (listA i) (listA i)
    prv := upd (upd st.prv (childA i) (childA i)) (listA i) (listA i)
    val := upd st.val i v
    deg := upd st.deg i 0
    mark := upd st.mark i false }

def fibheap_is_empty (st : St α) : Bool := list_empty st rootA

/-- The node index behind `GET_MIN_NODE` (meaningful on a non-empty heap). -/
def minIdx (st : St α) : Nat := (st.nxt rootA - 2) / 2

/-- `fibheap_minimum`: returns `container_of(h->root_list.next, ..., list)`,
encoded as the `list`-cell address it was computed from.  No emptiness
check, no sentinel. -/
def fibheap_minimum (st : St α) : Nat := st.nxt rootA

/-- `fibheap_insert` of node `i`. -/
def fibheap_insert (cmp : α → α → Int) (st : St α) (i : Nat) : St α :=
  let st1 :=
    if fibheap_is_empty st then list_add st (listA i) rootA
    else
      let st2 := list_add_tail st (listA i) rootA
      if cmp (st2.val i) (st2.val (minIdx st2)) < 0 then list_move st2 (listA i) rootA
      else st2
  { st1 with n := st1.n + 1 }

/-- `link(y, x)` on node indices. -/
def link (st : St α) (y x : Nat) : St α :=
  let st1 := list_add (list_del st (listA y)) (listA y) (childA x)
  { st1 with
    parent := upd st1.parent y (some x)
    deg := upd st1.deg x (st1.deg x + 1)
    mark := upd st1.mark y false }

/-- Table reads (`A[d]`, absent slots are `NULL`). -/
def getAN (A : List (Option Nat)) (d : Nat) : Option Nat := A.getD d none

/-- Table store, growing as needed (see `FibM.setA`). -/
def setAN (A : List (Option Nat)) (d : Nat) (x : Option Nat) : List (Option Nat) :=
  if d < A.length then A.set d x
  else A ++ List.replicate (d - A.length) none ++ [x]

/-- The inner `while (A[d])` loop of `consolidate`. -/
def collideGo (cmp : α → α → Int) (st : St α) (A : List (Option Nat))
    (x d : Nat) : St α × List (Option Nat) × Nat × Nat :=
  match hA : getAN A d with
  | none => (st, A, x, d)
  | some y =>
    if cmp (st.val y) (st.val x) < 0 then collideGo cmp (link st x y) (A.set d none) y (d + 1)
    else collideGo cmp (link st y x) (A.set d none) x (d + 1)
termination_by A.length - d
decreasing_by
  all_goals
    have hd : d < A.length := by
      by_contra hge
      have hnone : A[d]? = none := List.getElem?_eq_none (Nat.le_of_not_lt hge)
      rw [getAN, List.getD_eq_getElem?_getD, hnone] at hA
      simp at hA
    simp only [List.length_set]
    omega

/-- The `list_for_each_entry_safe` pass of `consolidate` over the root
list. -/
def consLoopGo (cmp : α → α → Int) : Nat → St α → List (Option Nat) → Nat → Nat →
    St α × List (Option Nat)
  | 0, st, A, _, _ => (st, A)
  | fuel + 1, st, A, pos, nsaved =>
    if pos = rootA then (st, A)
    else
      let x := (pos - 2) / 2
      let r := collideGo cmp st A x (st.deg x)
      consLoopGo cmp fuel r.1 (setAN r.2.1 r.2.2.2 (some r.2.2.1)) nsaved
        (r.1.nxt nsaved)

/-- One step of the rebuild loop of `consolidate`. -/
def rebuildStepP (cmp : α → α → Int) (st : St α) : Option Nat → St α
  | none => st
  | some i =>
    let st1 :=
      if fibheap_is_empty st then list_add st (listA i) rootA
      else
        let st2 := list_add_tail st (listA i) rootA
        if cmp (st2.val i) (st2.val (minIdx st2)) < 0 then list_move st2 (listA i) rootA
        else st2
    { st1 with parent := upd st1.parent i none }

/-- `consolidate`. -/
def consolidate (cmp : α → α → Int) (fuel : Nat) (st : St α) : St α :=
  let first := st.nxt rootA
  let r := consLoopGo cmp fuel st [] first (st.nxt first)
  let st2 :=
    { r.1 with nxt := upd r.1.nxt rootA rootA, prv := upd r.1.prv rootA rootA }
  r.2.foldl (rebuildStepP cmp) st2

/-- The `list_for_each_entry_safe` loop promoting the children of `z`. -/
def promoteGo : Nat → St α → Nat → Nat → Nat → St α
  | 0, st, _, _, _ => st
  | fuel + 1, st, headAddr, pos, nsaved =>
    if pos = headAddr then st
    else
      let x := (pos - 2) / 2
      let st1 := list_add_tail st pos rootA
      let st2 := { st1 with parent := upd st1.parent x none }
      promoteGo fuel st2 headAddr nsaved (st2.nxt nsaved)

/-- `fibheap_extract_min`. -/
def fibheap_extract_min (cmp : α → α → Int) (fuel : Nat) (st : St α) :
    Option Nat × St α :=
  if fibheap_is_empty st then (none, st)
  else
    let z := minIdx st
    let st1 :=
      if ¬ list_empty st (childA z) then
        promoteGo fuel st (childA z) (st.nxt (childA z)) (st.nxt (st.nxt (childA z)))
      else st
    let st2 := list_del st1 (listA z)
    let st3 := if ¬ fibheap_is_empty st2 then consolidate cmp fuel st2 else st2
    (some z, { st3 with n := st3.n - 1 })

/-- The three-node trace for the extracted-node claim: heap of `a`, `b`,
`c` (nodes `0`, `1`, `2`). -/
def buildABC (cmp : α → α → Int) (a b c : α) : St α :=
  let st0 := make_fibheap (emptySt a)
  let st1 := fibheap_insert cmp (make_fibheap_node st0 0 a) 0
  let st2 := fibheap_insert cmp (make_fibheap_node st1 1 b) 1
  fibheap_insert cmp (make_fibheap_node st2 2 c) 2

/-- State after the first extraction from the `a, b, c` heap. -/
def abcAfter1 (cmp : α → α → Int) (a b c : α) : Option Nat × St α :=
  fibheap_extract_min cmp 9 (buildABC cmp a b c)

/-- Result and state of the second extraction. -/
def abcAfter2 (cmp : α → α → Int) (a b c : α) : Option Nat × St α :=
  fibheap_extract_min cmp 9 (abcAfter1 cmp a b c).2

end FibP


/-! ## Theorems -/

namespace FibM

variable {α : Type}

@[simp] theorem FibTree.value_node (v : α) (m : Bool) (cs : List (FibTree α)) :
    (FibTree.node v m cs).value = v := rfl

@[simp] theorem FibTree.mark_node (v : α) (m : Bool) (cs : List (FibTree α)) :
    (FibTree.node v m cs).mark = m := rfl

@[simp] theorem FibTree.children_node (v : α) (m : Bool) (cs : List (FibTree α)) :
    (FibTree.node v m cs).children = cs := rfl

@[simp] theorem FibTree.degree_node (v : α) (m : Bool) (cs : List (FibTree α)) :
    (FibTree.node v m cs).degree = cs.length := rfl

@[simp] theorem valuesT_node (v : α) (m : Bool) (cs : List (FibTree α)) :
    valuesT (.node v m cs) = v :: valuesL cs := by
  rw [valuesT]

@[simp] theorem valuesL_nil : valuesL ([] : List (FibTree α)) = [] := by
  rw [valuesL]

@[simp] theorem valuesL_cons (t : FibTree α) (ts : List (FibTree α)) :
    valuesL (t :: ts) = valuesT t ++ valuesL ts := by
  rw [valuesL]

theorem valuesL_append (ts us : List (FibTree α)) :
    valuesL (ts ++ us) = valuesL ts ++ valuesL us := by
  induction ts with
  | nil => simp
  | cons t ts ih => simp [ih]

theorem valuesT_ne_nil (t : FibTree α) : valuesT t ≠ [] := by
  cases t with
  | node v m cs => simp

theorem value_mem_valuesT (t : FibTree α) : t.value ∈ valuesT t := by
  cases t with
  | node v m cs => simp

theorem mem_valuesL {w : α} {ts : List (FibTree α)} :
    w ∈ valuesL ts ↔ ∃ t ∈ ts, w ∈ valuesT t := by
  induction ts with
  | nil => simp
  | cons t ts ih =>
    simp only [valuesL_cons, List.mem_append, ih, List.mem_cons]
    constructor
    · rintro (hw | ⟨u, hu, hw⟩)
      · exact ⟨t, Or.inl rfl, hw⟩
      · exact ⟨u, Or.inr hu, hw⟩
    · rintro ⟨u, hu | hu, hw⟩
      · exact Or.inl (hu ▸ hw)
      · exact Or.inr ⟨u, hu, hw⟩

theorem valuesL_length_pos {ts : List (FibTree α)} (h : ts ≠ []) :
    0 < (valuesL ts).length := by
  cases ts with
  | nil => simp at h
  | cons t ts =>
    cases t with
    | node v m cs => simp

theorem valuesL_eq_nil_iff {ts : List (FibTree α)} : valuesL ts = [] ↔ ts = [] := by
  cases ts with
  | nil => simp
  | cons t ts =>
    cases t with
    | node v m cs => simp

/-! ### Comparator facts -/

theorem CmpOK.le_refl {cmp : α → α → Int} (hc : CmpOK cmp) (a : α) : cmp a a ≤ 0 := by
  by_cases h : cmp a a < 0
  · exact Int.le_of_lt h
  · exact (hc.not_lt a a).mp h

theorem CmpOK.le_of_not_lt {cmp : α → α → Int} (hc : CmpOK cmp) {a b : α}
    (h : ¬ cmp a b < 0) : cmp b a ≤ 0 := (hc.not_lt a b).mp h

theorem CmpOK.le_of_lt {cmp : α → α → Int} (hc : CmpOK cmp) {a b : α}
    (h : cmp a b < 0) : cmp a b ≤ 0 := Int.le_of_lt h

theorem CmpOK.lt_le_trans {cmp : α → α → Int} (hc : CmpOK cmp) {a b c : α}
    (h1 : cmp a b < 0) (h2 : cmp b c ≤ 0) : cmp a c ≤ 0 :=
  hc.le_trans a b c (Int.le_of_lt h1) h2

theorem intCmp_ok : CmpOK intCmp := by
  constructor
  · intro a b c h1 h2
    simp only [intCmp] at *
    omega
  · intro a b
    simp only [intCmp]
    omega
  · intro a b
    simp only [intCmp]
    omega

/-! ### Heap-order facts -/

theorem OrdT.value_le {cmp : α → α → Int} {v : α} {m : Bool}
    {cs : List (FibTree α)} (h : OrdT cmp (.node v m cs)) :
    ∀ c ∈ cs, cmp v c.value ≤ 0 := by
  cases h with
  | mk _ _ _ h1 _ => exact h1

theorem OrdT.children_ord {cmp : α → α → Int} {v : α} {m : Bool}
    {cs : List (FibTree α)} (h : OrdT cmp (.node v m cs)) :
    ∀ c ∈ cs, OrdT cmp c := by
  cases h with
  | mk _ _ _ _ h2 => exact h2

theorem OrdT.value_le_children {cmp : α → α → Int} {t : FibTree α}
    (h : OrdT cmp t) : ∀ c ∈ t.children, cmp t.value c.value ≤ 0 := by
  cases t with
  | node v m cs => exact h.value_le

theorem OrdT.le_all {cmp : α → α → Int} (hc : CmpOK cmp) {t : FibTree α}
    (h : OrdT cmp t) : ∀ w ∈ valuesT t, cmp t.value w ≤ 0 := by
  induction h with
  | mk v m cs h1 h2 ih =>
    intro w hw
    simp only [valuesT_node, List.mem_cons] at hw
    rcases hw with rfl | hw
    · exact hc.le_refl w
    · rcases mem_valuesL.mp hw with ⟨c, hcs, hwc⟩
      exact hc.le_trans v c.value w (h1 c hcs) (ih c hcs w hwc)

theorem OrdF_append {cmp : α → α → Int} {ts us : List (FibTree α)} :
    OrdF cmp (ts ++ us) ↔ OrdF cmp ts ∧ OrdF cmp us := by
  constructor
  · intro h
    exact ⟨fun t ht => h t (List.mem_append_left _ ht),
           fun t ht => h t (List.mem_append_right _ ht)⟩
  · rintro ⟨h1, h2⟩ t ht
    rcases List.mem_append.mp ht with ht | ht
    · exact h1 t ht
    · exact h2 t ht

theorem OrdF_of_perm {cmp : α → α → Int} {ts us : List (FibTree α)}
    (hp : ts.Perm us) (h : OrdF cmp ts) : OrdF cmp us :=
  fun t ht => h t (hp.symm.mem_iff.mp ht)

/-- The head bound follows from a bound on the root values plus heap order
of every tree. -/
theorem headMin_of_roots_le {cmp : α → α → Int} (hc : CmpOK cmp)
    {ts : List (FibTree α)} (hord : OrdF cmp ts)
    (hroots : ∀ m ∈ ts.head?, ∀ t ∈ ts, cmp m.value t.value ≤ 0) :
    HeadMin cmp ts := by
  intro m hm w hw
  rcases mem_valuesL.mp hw with ⟨t, ht, hwt⟩
  exact hc.le_trans _ _ _ (hroots m hm t ht) ((hord t ht).le_all hc w hwt)

/-! ### Consolidation-table facts -/

theorem getA_eq_getElem? (A : List (Option (FibTree α))) (d : Nat) :
    getA A d = (A[d]?).getD none := by
  rw [getA, List.getD_eq_getElem?_getD]

theorem getA_nil (d : Nat) : getA ([] : List (Option (FibTree α))) d = none := by
  simp [getA_eq_getElem?]

theorem getA_cons_zero (o : Option (FibTree α)) (A : List (Option (FibTree α))) :
    getA (o :: A) 0 = o := by
  simp [getA_eq_getElem?]

theorem getA_cons_succ (o : Option (FibTree α)) (A : List (Option (FibTree α)))
    (e : Nat) : getA (o :: A) (e + 1) = getA A e := by
  simp [getA_eq_getElem?]

theorem lt_length_of_getA_eq_some {A : List (Option (FibTree α))} {d : Nat}
    {t : FibTree α} (h : getA A d = some t) : d < A.length := by
  by_contra hge
  rw [getA_eq_getElem?, List.getElem?_eq_none (Nat.le_of_not_lt hge)] at h
  simp at h

theorem getA_eq_some_elem {A : List (Option (FibTree α))} {d : Nat}
    {t : FibTree α} (h : getA A d = some t) : A[d]? = some (some t) := by
  have hd := lt_length_of_getA_eq_some h
  rw [getA_eq_getElem?] at h
  cases ho : A[d]? with
  | none => rw [ho] at h; simp at h
  | some o => rw [ho] at h; simp at h; rw [h]

theorem getA_set_self {A : List (Option (FibTree α))} {d : Nat}
    (x : Option (FibTree α)) (h : d < A.length) : getA (A.set d x) d = x := by
  rw [getA_eq_getElem?, List.getElem?_set_eq_of_lt x h]
  rfl

theorem getA_set_ne {A : List (Option (FibTree α))} {d d' : Nat}
    (x : Option (FibTree α)) (h : d ≠ d') : getA (A.set d x) d' = getA A d' := by
  rw [getA_eq_getElem?, getA_eq_getElem?, List.getElem?_set_ne h]

theorem getA_setA_self (A : List (Option (FibTree α))) (d : Nat)
    (x : Option (FibTree α)) : getA (setA A d x) d = x := by
  rw [setA]
  by_cases hd : d < A.length
  · rw [if_pos hd, getA_set_self x hd]
  · rw [if_neg hd, getA_eq_getElem?, List.getElem?_append_right,
      List.length_append, List.length_replicate]
    · have : d - (A.length + (d - A.length)) = 0 := by omega
      rw [this]
      rfl
    · rw [List.length_append, List.length_replicate]
      omega

theorem getA_setA_ne (A : List (Option (FibTree α))) {d d' : Nat}
    (x : Option (FibTree α)) (h : d ≠ d') : getA (setA A d x) d' = getA A d' := by
  rw [setA]
  by_cases hd : d < A.length
  · rw [if_pos hd, getA_set_ne x h]
  · rw [if_neg hd, getA_eq_getElem?, getA_eq_getElem?]
    by_cases hd' : d' < A.length
    · rw [List.getElem?_append_left]
      · rw [List.getElem?_append_left hd']
      · rw [List.length_append, List.length_replicate]
        omega
    · rw [List.getElem?_eq_none (Nat.le_of_not_lt hd')]
      by_cases hlt : d' < A.length + (d - A.length)
      · rw [List.getElem?_append_left (by rw [List.length_append, List.length_replicate]; omega),
          List.getElem?_append_right (Nat.le_of_not_lt hd'), List.getElem?_replicate,
          if_pos (by omega)]
        rfl
      · rw [List.getElem?_append_right (by rw [List.length_append, List.length_replicate]; omega)]
        rw [List.getElem?_eq_none, Option.getD_none]
        simp only [List.length_append, List.length_replicate, List.length_cons,
          List.length_nil]
        omega

/-- Clearing an occupied slot removes exactly its occupant from the
collected entries (up to permutation). -/
theorem filterMap_set_none_perm {A : List (Option (FibTree α))} {d : Nat}
    {y : FibTree α} (h : getA A d = some y) :
    ((A.set d none).filterMap id ++ [y]).Perm (A.filterMap id) := by
  have hd := lt_length_of_getA_eq_some h
  have he := getA_eq_some_elem h
  have hA : A = A.take d ++ A[d] :: A.drop (d + 1) := by
    conv_lhs => rw [← List.take_append_drop d A, List.drop_eq_getElem_cons hd]
  have hgd : A[d] = some y := by
    have hge := List.getElem?_eq_getElem hd
    rw [he] at hge
    exact (Option.some_inj.mp hge).symm
  rw [List.set_eq_take_cons_drop none hd, List.filterMap_append]
  conv_rhs => rw [hA, hgd, List.filterMap_append]
  simp only [List.filterMap_cons, id_eq]
  exact List.perm_append_comm.trans
    (@List.perm_middle _ y (List.filterMap id (A.take d))
      (List.filterMap id (A.drop (d + 1)))).symm

/-- Storing into an empty slot adds exactly the stored tree to the
collected entries. -/
theorem filterMap_setA_some_perm {A : List (Option (FibTree α))} {d : Nat}
    (t : FibTree α) (h : getA A d = none) :
    ((setA A d (some t)).filterMap id).Perm (t :: A.filterMap id) := by
  rw [setA]
  by_cases hd : d < A.length
  · have hgd : A[d] = none := by
      rw [getA_eq_getElem?, List.getElem?_eq_getElem hd] at h
      simpa using h
    have hA : A = A.take d ++ A[d] :: A.drop (d + 1) := by
      conv_lhs => rw [← List.take_append_drop d A, List.drop_eq_getElem_cons hd]
    rw [if_pos hd, List.set_eq_take_cons_drop _ hd, List.filterMap_append]
    conv_rhs => rw [hA, hgd, List.filterMap_append]
    simp only [List.filterMap_cons, id_eq]
    exact List.perm_middle
  · rw [if_neg hd, List.filterMap_append, List.filterMap_append]
    have : List.filterMap id (List.replicate (d - A.length) (none : Option (FibTree α))) = [] := by
      rw [List.filterMap_eq_nil_iff]
      intro o ho
      rw [List.eq_of_mem_replicate ho]
      rfl
    rw [this]
    simp only [List.append_nil, List.filterMap_cons, id_eq, List.filterMap_nil]
    exact List.perm_append_comm
/-! ### Linking facts -/

theorem linkT_value (y x : FibTree α) : (linkT y x).value = x.value := rfl

theorem linkT_degree (y x : FibTree α) : (linkT y x).degree = x.degree + 1 := by
  cases x with
  | node v m cs => rfl

theorem valuesT_linkT (y x : FibTree α) :
    (valuesT (linkT y x)).Perm (valuesT x ++ valuesT y) := by
  cases x with
  | node xv xm xcs =>
    cases y with
    | node yv ym ycs =>
      simp only [linkT, valuesT_node, valuesL_cons, FibTree.value_node,
        FibTree.children_node, List.cons_append]
      exact List.Perm.cons xv
        ((List.Perm.cons yv List.perm_append_comm).trans List.perm_middle.symm)

theorem OrdT_of_mark {cmp : α → α → Int} {v : α} {m m' : Bool}
    {cs : List (FibTree α)} (h : OrdT cmp (.node v m cs)) :
    OrdT cmp (.node v m' cs) :=
  OrdT.mk v m' cs h.value_le h.children_ord

theorem OrdT_linkT {cmp : α → α → Int} {y x : FibTree α}
    (hx : OrdT cmp x) (hy : OrdT cmp y) (hle : cmp x.value y.value ≤ 0) :
    OrdT cmp (linkT y x) := by
  cases x with
  | node xv xm xcs =>
    cases y with
    | node yv ym ycs =>
      refine OrdT.mk xv xm _ ?_ ?_
      · intro c hc
        rcases List.mem_cons.mp hc with rfl | hc
        · exact hle
        · exact hx.value_le c hc
      · intro c hc
        rcases List.mem_cons.mp hc with rfl | hc
        · exact OrdT_of_mark hy
        · exact hx.children_ord c hc

theorem valuesL_eq_join (ts : List (FibTree α)) :
    valuesL ts = (ts.map valuesT).flatten := by
  induction ts with
  | nil => simp
  | cons t ts ih => simp [ih]

theorem valuesL_perm {ts us : List (FibTree α)} (h : ts.Perm us) :
    (valuesL ts).Perm (valuesL us) := by
  rw [valuesL_eq_join, valuesL_eq_join]
  exact (h.map valuesT).flatten

/-! ### The inner collision loop -/

theorem whileCollide_spec (cmp : α → α → Int) (A : List (Option (FibTree α)))
    (x : FibTree α) (d : Nat) (hxd : x.degree = d)
    (hdeg : ∀ e t, getA A e = some t → t.degree = e) :
    (∀ e t, getA (whileCollide cmp A x d).1 e = some t → t.degree = e) ∧
    (whileCollide cmp A x d).2.1.degree = (whileCollide cmp A x d).2.2 ∧
    getA (whileCollide cmp A x d).1 (whileCollide cmp A x d).2.2 = none ∧
    (valuesL ((whileCollide cmp A x d).1.filterMap id) ++
        valuesT (whileCollide cmp A x d).2.1).Perm
      (valuesL (A.filterMap id) ++ valuesT x) := by
  induction A, x, d using whileCollide.induct cmp with
  | case1 A x d hA =>
    rw [whileCollide.eq_def]
    split
    · exact ⟨hdeg, hxd, hA, List.Perm.refl _⟩
    · rename_i y2 heq
      rw [hA] at heq
      exact absurd heq (by simp)
  | case2 A x d y hA hxy ih =>
    rw [whileCollide.eq_def]
    split
    · rename_i heq
      rw [hA] at heq
      exact absurd heq (by simp)
    · rename_i y2 heq
      rw [hA] at heq
      have hy2 : y2 = y := Option.some_inj.mp heq.symm
      rw [hy2]
      rw [if_pos hxy]
      have hyd : y.degree = d := hdeg d y hA
      have hdeg' : ∀ e t, getA (A.set d none) e = some t → t.degree = e := by
        intro e t het
        by_cases hde : d = e
        · subst hde
          rw [getA_set_self none (lt_length_of_getA_eq_some hA)] at het
          exact absurd het (by simp)
        · rw [getA_set_ne none hde] at het
          exact hdeg e t het
      rcases ih (by rw [linkT_degree, hyd]) hdeg' with ⟨h1, h2, h3, h4⟩
      refine ⟨h1, h2, h3, h4.trans ?_⟩
      have hsetv : (valuesL ((A.set d none).filterMap id) ++ valuesT y).Perm
          (valuesL (A.filterMap id)) := by
        have hv := valuesL_perm (filterMap_set_none_perm hA)
        rw [valuesL_append] at hv
        simpa using hv
      have hstep : (valuesL ((A.set d none).filterMap id) ++ valuesT (linkT x y)).Perm
          ((valuesL ((A.set d none).filterMap id) ++ valuesT y) ++ valuesT x) := by
        rw [List.append_assoc]
        exact List.Perm.append_left _ (valuesT_linkT x y)
      exact hstep.trans (List.Perm.append_right _ hsetv)
  | case3 A x d y hA hxy ih =>
    rw [whileCollide.eq_def]
    split
    · rename_i heq
      rw [hA] at heq
      exact absurd heq (by simp)
    · rename_i y2 heq
      rw [hA] at heq
      have hy2 : y2 = y := Option.some_inj.mp heq.symm
      rw [hy2]
      rw [if_neg hxy]
      have hdeg' : ∀ e t, getA (A.set d none) e = some t → t.degree = e := by
        intro e t het
        by_cases hde : d = e
        · subst hde
          rw [getA_set_self none (lt_length_of_getA_eq_some hA)] at het
          exact absurd het (by simp)
        · rw [getA_set_ne none hde] at het
          exact hdeg e t het
      rcases ih (by rw [linkT_degree, hxd]) hdeg' with ⟨h1, h2, h3, h4⟩
      refine ⟨h1, h2, h3, h4.trans ?_⟩
      have hsetv : (valuesL ((A.set d none).filterMap id) ++ valuesT y).Perm
          (valuesL (A.filterMap id)) := by
        have hv := valuesL_perm (filterMap_set_none_perm hA)
        rw [valuesL_append] at hv
        simpa using hv
      have hstep : (valuesL ((A.set d none).filterMap id) ++ valuesT (linkT y x)).Perm
          ((valuesL ((A.set d none).filterMap id) ++ valuesT y) ++ valuesT x) := by
        rw [List.append_assoc]
        exact List.Perm.append_left _
          ((valuesT_linkT y x).trans List.perm_append_comm)
      exact hstep.trans (List.Perm.append_right _ hsetv)

theorem whileCollide_ord (cmp : α → α → Int) (hc : CmpOK cmp)
    (A : List (Option (FibTree α))) (x : FibTree α) (d : Nat)
    (hx : OrdT cmp x) (hA : ∀ e t, getA A e = some t → OrdT cmp t) :
    OrdT cmp (whileCollide cmp A x d).2.1 ∧
    (∀ e t, getA (whileCollide cmp A x d).1 e = some t → OrdT cmp t) := by
  induction A, x, d using whileCollide.induct cmp with
  | case1 A x d hA0 =>
    rw [whileCollide.eq_def]
    split
    · exact ⟨hx, hA⟩
    · rename_i y2 heq
      rw [hA0] at heq
      exact absurd heq (by simp)
  | case2 A x d y hA0 hxy ih =>
    rw [whileCollide.eq_def]
    split
    · rename_i heq
      rw [hA0] at heq
      exact absurd heq (by simp)
    · rename_i y2 heq
      rw [hA0] at heq
      have hy2 : y2 = y := Option.some_inj.mp heq.symm
      rw [hy2]
      rw [if_pos hxy]
      have hy : OrdT cmp y := hA d y hA0
      have hA' : ∀ e t, getA (A.set d none) e = some t → OrdT cmp t := by
        intro e t het
        by_cases hde : d = e
        · subst hde
          rw [getA_set_self none (lt_length_of_getA_eq_some hA0)] at het
          exact absurd het (by simp)
        · rw [getA_set_ne none hde] at het
          exact hA e t het
      exact ih (OrdT_linkT hy hx (hc.le_of_lt hxy)) hA'
  | case3 A x d y hA0 hxy ih =>
    rw [whileCollide.eq_def]
    split
    · rename_i heq
      rw [hA0] at heq
      exact absurd heq (by simp)
    · rename_i y2 heq
      rw [hA0] at heq
      have hy2 : y2 = y := Option.some_inj.mp heq.symm
      rw [hy2]
      rw [if_neg hxy]
      have hy : OrdT cmp y := hA d y hA0
      have hA' : ∀ e t, getA (A.set d none) e = some t → OrdT cmp t := by
        intro e t het
        by_cases hde : d = e
        · subst hde
          rw [getA_set_self none (lt_length_of_getA_eq_some hA0)] at het
          exact absurd het (by simp)
        · rw [getA_set_ne none hde] at het
          exact hA e t het
      exact ih (OrdT_linkT hx hy (hc.le_of_not_lt hxy)) hA'

/-! ### The table-filling pass -/

theorem consolidatePass_spec (cmp : α → α → Int) (ts : List (FibTree α)) :
    ∀ A, (∀ e t, getA A e = some t → t.degree = e) →
    (∀ e t, getA (consolidatePass cmp ts A) e = some t → t.degree = e) ∧
    (valuesL ((consolidatePass cmp ts A).filterMap id)).Perm
      (valuesL (A.filterMap id) ++ valuesL ts) := by
  induction ts with
  | nil =>
    intro A hdeg
    rw [consolidatePass]
    simpa using hdeg
  | cons x xs ih =>
    intro A hdeg
    rw [consolidatePass]
    rcases whileCollide_spec cmp A x x.degree rfl hdeg with ⟨h1, h2, h3, h4⟩
    have hdeg' : ∀ e t,
        getA (setA (whileCollide cmp A x x.degree).1 (whileCollide cmp A x x.degree).2.2
          (some (whileCollide cmp A x x.degree).2.1)) e = some t → t.degree = e := by
      intro e t het
      by_cases hde : (whileCollide cmp A x x.degree).2.2 = e
      · subst hde
        rw [getA_setA_self] at het
        rw [← Option.some_inj.mp het]
        exact h2
      · rw [getA_setA_ne _ _ hde] at het
        exact h1 e t het
    rcases ih _ hdeg' with ⟨g1, g2⟩
    refine ⟨g1, g2.trans ?_⟩
    have hset : ((setA (whileCollide cmp A x x.degree).1 (whileCollide cmp A x x.degree).2.2
        (some (whileCollide cmp A x x.degree).2.1)).filterMap id).Perm
        ((whileCollide cmp A x x.degree).2.1 :: (whileCollide cmp A x x.degree).1.filterMap id) :=
      filterMap_setA_some_perm _ h3
    have hsetv := valuesL_perm hset
    rw [valuesL_cons] at hsetv
    have hstep : (valuesL ((setA (whileCollide cmp A x x.degree).1
          (whileCollide cmp A x x.degree).2.2
          (some (whileCollide cmp A x x.degree).2.1)).filterMap id) ++ valuesL xs).Perm
        ((valuesL (A.filterMap id) ++ valuesT x) ++ valuesL xs) := by
      refine List.Perm.append_right _ (hsetv.trans ?_)
      exact (List.perm_append_comm).trans h4
    refine hstep.trans ?_
    rw [valuesL_cons, List.append_assoc]

theorem consolidatePass_ord (cmp : α → α → Int) (hc : CmpOK cmp)
    (ts : List (FibTree α)) :
    ∀ A, OrdF cmp ts → (∀ e t, getA A e = some t → OrdT cmp t) →
    (∀ e t, getA (consolidatePass cmp ts A) e = some t → OrdT cmp t) := by
  induction ts with
  | nil =>
    intro A _ hA
    rw [consolidatePass]
    exact hA
  | cons x xs ih =>
    intro A hts hA
    rw [consolidatePass]
    have hx : OrdT cmp x := hts x (by simp)
    rcases whileCollide_ord cmp hc A x x.degree hx hA with ⟨w1, w2⟩
    refine ih _ (fun t ht => hts t (by simp [ht])) ?_
    intro e t het
    by_cases hde : (whileCollide cmp A x x.degree).2.2 = e
    · subst hde
      rw [getA_setA_self] at het
      rw [← Option.some_inj.mp het]
      exact w1
    · rw [getA_setA_ne _ _ hde] at het
      exact w2 e t het

/-! ### The rebuild loop -/

theorem rebuildStep_perm (cmp : α → α → Int) (acc : List (FibTree α))
    (o : Option (FibTree α)) :
    (rebuildStep cmp acc o).Perm (acc ++ o.toList) := by
  cases o with
  | none => cases acc <;> simp [rebuildStep]
  | some t =>
    cases acc with
    | nil => simp [rebuildStep]
    | cons m rest =>
      rw [rebuildStep]
      by_cases hlt : cmp t.value m.value < 0
      · rw [if_pos hlt]
        exact (@List.perm_append_comm _ (m :: rest) [t]).symm
      · rw [if_neg hlt]
        simp

theorem rebuild_aux_perm (cmp : α → α → Int) (A : List (Option (FibTree α))) :
    ∀ acc, (A.foldl (rebuildStep cmp) acc).Perm (acc ++ A.filterMap id) := by
  induction A with
  | nil => intro acc; simp
  | cons o A ih =>
    intro acc
    rw [List.foldl_cons]
    refine (ih (rebuildStep cmp acc o)).trans ?_
    have h1 : (rebuildStep cmp acc o ++ A.filterMap id).Perm
        ((acc ++ o.toList) ++ A.filterMap id) :=
      List.Perm.append_right _ (rebuildStep_perm cmp acc o)
    refine h1.trans ?_
    rw [List.append_assoc]
    cases o with
    | none => simp
    | some t => simp

theorem rebuild_perm (cmp : α → α → Int) (A : List (Option (FibTree α))) :
    (rebuild cmp A).Perm (A.filterMap id) := by
  have := rebuild_aux_perm cmp A []
  simpa [rebuild] using this

/-- The fold of the rebuild loop keeps every accumulated root heap-ordered
and its head ranked at least as high as every root. -/
theorem rebuild_aux_inv (cmp : α → α → Int) (hc : CmpOK cmp)
    (A : List (Option (FibTree α))) :
    ∀ acc, (∀ e t, getA A e = some t → OrdT cmp t) → OrdF cmp acc →
    (∀ m ∈ acc.head?, ∀ t ∈ acc, cmp m.value t.value ≤ 0) →
    OrdF cmp (A.foldl (rebuildStep cmp) acc) ∧
    (∀ m ∈ (A.foldl (rebuildStep cmp) acc).head?,
      ∀ t ∈ A.foldl (rebuildStep cmp) acc, cmp m.value t.value ≤ 0) := by
  induction A with
  | nil =>
    intro acc _ h1 h2
    exact ⟨h1, h2⟩
  | cons o A ih =>
    intro acc hA h1 h2
    rw [List.foldl_cons]
    have hA' : ∀ e t, getA A e = some t → OrdT cmp t := by
      intro e t het
      refine hA (e + 1) t ?_
      rw [getA_cons_succ]
      exact het
    refine ih (rebuildStep cmp acc o) hA' ?_ ?_
    · -- order is preserved by one step
      cases o with
      | none => simpa [rebuildStep] using h1
      | some t =>
        have ht : OrdT cmp t := hA 0 t (getA_cons_zero _ _)
        cases acc with
        | nil =>
          intro u hu
          simp [rebuildStep] at hu
          rw [hu]
          exact ht
        | cons m rest =>
          rw [rebuildStep]
          by_cases hlt : cmp t.value m.value < 0
          · rw [if_pos hlt]
            intro u hu
            rcases List.mem_cons.mp hu with rfl | hu
            · exact ht
            · exact h1 u hu
          · rw [if_neg hlt]
            intro u hu
            rcases List.mem_append.mp hu with hu | hu
            · exact h1 u hu
            · simp at hu
              rw [hu]
              exact ht
    · -- the head bound is preserved by one step
      cases o with
      | none => simpa [rebuildStep] using h2
      | some t =>
        cases acc with
        | nil =>
          intro m hm u hu
          simp [rebuildStep] at hm hu
          rw [← hm, hu]
          exact hc.le_refl _
        | cons m rest =>
          rw [rebuildStep]
          by_cases hlt : cmp t.value m.value < 0
          · rw [if_pos hlt]
            intro m' hm' u hu
            have hm2 : m' = t := by symm; simpa using hm'
            subst hm2
            rcases List.mem_cons.mp hu with rfl | hu
            · exact hc.le_refl _
            · exact hc.lt_le_trans hlt (h2 m (by simp) u hu)
          · rw [if_neg hlt]
            intro m' hm' u hu
            have hm2 : m' = m := by symm; simpa using hm'
            subst hm2
            rcases List.mem_cons.mp hu with rfl | hu2
            · exact hc.le_refl _
            · rcases List.mem_append.mp hu2 with hu3 | hu3
              · exact h2 m' (by simp) u (List.mem_cons_of_mem _ hu3)
              · have hut : u = t := by simpa using hu3
                rw [hut]
                exact hc.le_of_not_lt hlt

/-! ### Consolidate: the bundled specification -/

theorem exists_getA_of_mem {A : List (Option (FibTree α))} {u : FibTree α}
    (h : u ∈ A.filterMap id) : ∃ e, getA A e = some u := by
  rcases List.mem_filterMap.mp h with ⟨o, ho, hou⟩
  rcases List.getElem_of_mem ho with ⟨e, he, hoe⟩
  refine ⟨e, ?_⟩
  rw [getA_eq_getElem?, List.getElem?_eq_getElem he, hoe]
  simpa using hou

theorem degree_nodup_aux :
    ∀ (A : List (Option (FibTree α))) (k : Nat),
    (∀ e t, getA A e = some t → t.degree = e + k) →
    (((A.filterMap id).map FibTree.degree).Nodup) := by
  intro A
  induction A with
  | nil => intro k _; simp
  | cons o A ih =>
    intro k hk
    have ihA := ih (k + 1) (fun e t het => by
      have := hk (e + 1) t (by rw [getA_cons_succ]; exact het)
      omega)
    cases o with
    | none => simpa using ihA
    | some t =>
      simp only [List.filterMap_cons, id_eq, List.map_cons, List.nodup_cons]
      refine ⟨?_, ihA⟩
      intro hmem
      rcases List.mem_map.mp hmem with ⟨u, hu, hdu⟩
      rcases exists_getA_of_mem hu with ⟨e, he⟩
      have h1 := hk (e + 1) u (by rw [getA_cons_succ]; exact he)
      have h2 := hk 0 t (getA_cons_zero _ _)
      omega

theorem getA_nil_elim {e : Nat} {t : FibTree α}
    (h : getA ([] : List (Option (FibTree α))) e = some t) : False := by
  rw [getA_nil] at h
  exact Option.noConfusion h

theorem consolidate_perm (cmp : α → α → Int) (ts : List (FibTree α)) :
    (valuesL (consolidate cmp ts)).Perm (valuesL ts) := by
  rw [consolidate]
  have h1 := valuesL_perm (rebuild_perm cmp (consolidatePass cmp ts []))
  have h2 := (consolidatePass_spec cmp ts []
    (fun e t het => (getA_nil_elim het).elim)).2
  refine h1.trans (h2.trans ?_)
  simp

theorem consolidate_ord (cmp : α → α → Int) (hc : CmpOK cmp)
    {ts : List (FibTree α)} (hord : OrdF cmp ts) :
    OrdF cmp (consolidate cmp ts) := by
  rw [consolidate, rebuild]
  have hA : ∀ e t, getA (consolidatePass cmp ts []) e = some t → OrdT cmp t :=
    consolidatePass_ord cmp hc ts [] hord
      (fun e t het => (getA_nil_elim het).elim)
  exact (rebuild_aux_inv cmp hc _ [] hA (by intro t ht; simp at ht)
    (by intro m hm; simp at hm)).1

theorem consolidate_head_roots (cmp : α → α → Int) (hc : CmpOK cmp)
    {ts : List (FibTree α)} (hord : OrdF cmp ts) :
    ∀ m ∈ (consolidate cmp ts).head?, ∀ t ∈ consolidate cmp ts,
      cmp m.value t.value ≤ 0 := by
  rw [consolidate, rebuild]
  have hA : ∀ e t, getA (consolidatePass cmp ts []) e = some t → OrdT cmp t :=
    consolidatePass_ord cmp hc ts [] hord
      (fun e t het => (getA_nil_elim het).elim)
  exact (rebuild_aux_inv cmp hc _ [] hA (by intro t ht; simp at ht)
    (by intro m hm; simp at hm)).2

theorem consolidate_headMin (cmp : α → α → Int) (hc : CmpOK cmp)
    {ts : List (FibTree α)} (hord : OrdF cmp ts) :
    HeadMin cmp (consolidate cmp ts) :=
  headMin_of_roots_le hc (consolidate_ord cmp hc hord)
    (consolidate_head_roots cmp hc hord)

theorem consolidate_degree_nodup (cmp : α → α → Int) (ts : List (FibTree α)) :
    ((consolidate cmp ts).map FibTree.degree).Nodup := by
  rw [consolidate]
  have hperm := (rebuild_perm cmp (consolidatePass cmp ts [])).map FibTree.degree
  refine hperm.nodup_iff.mpr ?_
  refine degree_nodup_aux _ 0 ?_
  intro e t het
  have := (consolidatePass_spec cmp ts []
    (fun e t het => (getA_nil_elim het).elim)).1 e t het
  omega

/-! ### Heap-level facts: insert, extract, union -/

theorem insert_n (h : Fibheap α) (v : α) : (fibheap_insert h v).n = h.n + 1 := rfl

theorem insert_cmp (h : Fibheap α) (v : α) : (fibheap_insert h v).cmp = h.cmp := rfl

theorem insert_roots_ne_nil (h : Fibheap α) (v : α) :
    (fibheap_insert h v).roots ≠ [] := by
  rw [fibheap_insert]
  cases hr : h.roots with
  | nil => simp
  | cons m rest =>
    by_cases hlt : h.cmp v m.value < 0 <;> simp [hlt]

theorem insert_vals_perm (h : Fibheap α) (v : α) :
    (valuesL (fibheap_insert h v).roots).Perm (v :: valuesL h.roots) := by
  rw [fibheap_insert]
  cases hr : h.roots with
  | nil => simp
  | cons m rest =>
    by_cases hlt : h.cmp v m.value < 0
    · simp only [hlt, if_true]
      simp
    · simp only [hlt, if_false]
      rw [valuesL_append]
      simp only [valuesL_cons, valuesT_node, valuesL_nil, List.append_nil]
      exact List.perm_append_comm.trans (by simp)

theorem insert_ord {cmp : α → α → Int} (h : Fibheap α) (v : α)
    (hord : OrdF cmp h.roots) : OrdF cmp (fibheap_insert h v).roots := by
  have hx : OrdT cmp (.node v false ([] : List (FibTree α))) :=
    OrdT.mk v false [] (by simp) (by simp)
  rw [fibheap_insert]
  cases hr : h.roots with
  | nil =>
    intro t ht
    simp at ht
    rw [ht]
    exact hx
  | cons m rest =>
    have hord' : OrdF cmp (m :: rest) := by rw [← hr]; exact hord
    by_cases hlt : h.cmp v m.value < 0
    · simp only [hlt, if_true]
      intro t ht
      rcases List.mem_cons.mp ht with rfl | ht
      · exact hx
      · exact hord' t ht
    · simp only [hlt, if_false]
      intro t ht
      rcases List.mem_append.mp ht with ht | ht
      · exact hord' t ht
      · simp at ht
        rw [ht]
        exact hx

theorem insert_headMin {hcmp : α → α → Int} (hc : CmpOK hcmp) (h : Fibheap α) (v : α)
    (hcm : h.cmp = hcmp) (hord : OrdF hcmp h.roots) (hmin : HeadMin hcmp h.roots) :
    HeadMin hcmp (fibheap_insert h v).roots := by
  rw [fibheap_insert]
  cases hr : h.roots with
  | nil =>
    intro m hm w hw
    simp at hm hw
    rw [← hm, hw]
    exact hc.le_refl v
  | cons m rest =>
    rw [hcm]
    by_cases hlt : hcmp v m.value < 0
    · simp only [hlt, if_true]
      intro m' hm' w hw
      have hm2 : m' = FibTree.node v false [] := by symm; simpa using hm'
      subst hm2
      simp only [valuesL_cons, valuesT_node, valuesL_nil] at hw
      rcases List.mem_cons.mp hw with rfl | hw
      · exact hc.le_refl _
      · have hmw : hcmp m.value w ≤ 0 := by
          refine hmin m (by rw [hr]; rfl) w ?_
          rw [hr, valuesL_cons]
          simpa using hw
        exact hc.lt_le_trans hlt hmw
    · simp only [hlt, if_false]
      intro m' hm' w hw
      have hm2 : m' = m := by symm; simpa using hm'
      subst hm2
      rw [valuesL_append] at hw
      rcases List.mem_append.mp hw with hw | hw
      · exact hmin m' (by rw [hr]; rfl) w (by rw [hr]; exact hw)
      · simp at hw
        rw [hw]
        exact hc.le_of_not_lt hlt

theorem extract_empty (h : Fibheap α) (hr : h.roots = []) :
    fibheap_extract_min h = (none, h) := by
  rw [fibheap_extract_min, hr]

theorem extract_fst (h : Fibheap α) {z : FibTree α} {rest : List (FibTree α)}
    (hr : h.roots = z :: rest) : (fibheap_extract_min h).1 = some z := by
  rw [fibheap_extract_min, hr]

theorem extract_n (h : Fibheap α) {z : FibTree α} {rest : List (FibTree α)}
    (hr : h.roots = z :: rest) : (fibheap_extract_min h).2.n = h.n - 1 := by
  rw [fibheap_extract_min, hr]

theorem extract_cmp (h : Fibheap α) : (fibheap_extract_min h).2.cmp = h.cmp := by
  rw [fibheap_extract_min]
  cases hr : h.roots <;> rfl

theorem extract_roots (h : Fibheap α) {z : FibTree α} {rest : List (FibTree α)}
    (hr : h.roots = z :: rest) :
    (fibheap_extract_min h).2.roots =
      if (rest ++ z.children).isEmpty then rest ++ z.children
      else consolidate h.cmp (rest ++ z.children) := by
  rw [fibheap_extract_min, hr]

theorem extract_vals (h : Fibheap α) {z : FibTree α} {rest : List (FibTree α)}
    (hr : h.roots = z :: rest) :
    (valuesL (fibheap_extract_min h).2.roots).Perm
      (valuesL rest ++ valuesL z.children) := by
  rw [extract_roots h hr]
  by_cases he : (rest ++ z.children).isEmpty
  · rw [if_pos he, valuesL_append]
  · rw [if_neg he]
    exact (consolidate_perm h.cmp _).trans (by rw [valuesL_append])

theorem extract_ord {hcmp : α → α → Int} (hc : CmpOK hcmp) (h : Fibheap α)
    (hcm : h.cmp = hcmp) (hord : OrdF hcmp h.roots) :
    OrdF hcmp (fibheap_extract_min h).2.roots := by
  cases hr : h.roots with
  | nil =>
    rw [extract_empty h hr]
    intro t ht
    rw [hr] at ht
    simp at ht
  | cons z rest =>
    rw [extract_roots h hr]
    have hordp : OrdF hcmp (rest ++ z.children) := by
      rw [OrdF_append]
      constructor
      · intro t ht
        exact hord t (by rw [hr]; exact List.mem_cons_of_mem _ ht)
      · have hz : OrdT hcmp z := hord z (by rw [hr]; simp)
        cases z with
        | node v m cs => exact hz.children_ord
    by_cases he : (rest ++ z.children).isEmpty
    · rw [if_pos he]
      exact hordp
    · rw [if_neg he, hcm]
      exact consolidate_ord hcmp hc hordp

theorem extract_headMin {hcmp : α → α → Int} (hc : CmpOK hcmp) (h : Fibheap α)
    (hcm : h.cmp = hcmp) (hord : OrdF hcmp h.roots) :
    HeadMin hcmp (fibheap_extract_min h).2.roots := by
  cases hr : h.roots with
  | nil =>
    rw [extract_empty h hr]
    intro m hm
    rw [hr] at hm
    simp at hm
  | cons z rest =>
    rw [extract_roots h hr]
    have hordp : OrdF hcmp (rest ++ z.children) := by
      rw [OrdF_append]
      constructor
      · intro t ht
        exact hord t (by rw [hr]; exact List.mem_cons_of_mem _ ht)
      · have hz : OrdT hcmp z := hord z (by rw [hr]; simp)
        cases z with
        | node v m cs => exact hz.children_ord
    by_cases he : (rest ++ z.children).isEmpty
    · rw [if_pos he]
      intro m hm
      rw [List.isEmpty_iff] at he
      rw [he] at hm
      simp at hm
    · rw [if_neg he, hcm]
      exact consolidate_headMin hcmp hc hordp

theorem union_none_right (o : Option (Fibheap α)) : fibheap_union o none = o := rfl

theorem union_empty_right (o : Option (Fibheap α)) (h2 : Fibheap α)
    (he : h2.roots = []) : fibheap_union o (some h2) = o := by
  rw [fibheap_union.eq_def]
  simp [he]

theorem union_none_left (h2 : Fibheap α) (hne : h2.roots ≠ []) :
    fibheap_union none (some h2) = some h2 := by
  rw [fibheap_union.eq_def]
  simp [List.isEmpty_iff, hne]

theorem union_empty_left (h1 h2 : Fibheap α) (he : h1.roots = [])
    (hne : h2.roots ≠ []) : fibheap_union (some h1) (some h2) = some h2 := by
  rw [fibheap_union.eq_def]
  cases h2r : h2.roots with
  | nil => exact absurd h2r hne
  | cons m2 r2 => simp [List.isEmpty_iff, h2r, he]

theorem union_spec (h1 h2 : Fibheap α) {m1 m2 : FibTree α}
    {r1 r2 : List (FibTree α)} (e1 : h1.roots = m1 :: r1)
    (e2 : h2.roots = m2 :: r2) :
    fibheap_union (some h1) (some h2) =
      some { roots := if h1.cmp m2.value m1.value < 0 then m2 :: ((m1 :: r1) ++ r2)
               else (m1 :: r1) ++ (m2 :: r2)
             cmp := h1.cmp
             n := h1.n + h2.n } := by
  rw [fibheap_union.eq_def]
  simp only [e2, e1, List.isEmpty_cons, if_false]
  rfl

/-! ### Path surgery: list-level helpers -/

theorem modN_length {β : Type} (f : β → β) (j : Nat) (l : List β) :
    (modN f j l).length = l.length := by
  induction l generalizing j with
  | nil => cases j <;> rfl
  | cons b bs ih =>
    cases j with
    | zero => rfl
    | succ j => simpa [modN] using ih j

theorem modN_get_ne {β : Type} (f : β → β) {j k : Nat} (l : List β)
    (h : k ≠ j) : (modN f j l).get? k = l.get? k := by
  induction l generalizing j k with
  | nil => cases j <;> rfl
  | cons b bs ih =>
    cases j with
    | zero =>
      cases k with
      | zero => exact absurd rfl h
      | succ k => rfl
    | succ j =>
      cases k with
      | zero => rfl
      | succ k => simpa [modN] using ih (fun hk => h (by rw [hk]))

theorem modN_get_self {β : Type} (f : β → β) (j : Nat) (l : List β) :
    (modN f j l).get? j = (l.get? j).map f := by
  induction l generalizing j with
  | nil => cases j <;> rfl
  | cons b bs ih =>
    cases j with
    | zero => rfl
    | succ j => simpa [modN] using ih j

theorem mem_modN {β : Type} {f : β → β} {j : Nat} {l : List β} {u : β}
    (h : u ∈ modN f j l) : (∃ c, l.get? j = some c ∧ u = f c) ∨ u ∈ l := by
  induction l generalizing j with
  | nil => cases j <;> simp [modN] at h
  | cons b bs ih =>
    cases j with
    | zero =>
      rw [modN] at h
      rcases List.mem_cons.mp h with rfl | h
      · exact Or.inl ⟨b, rfl, rfl⟩
      · exact Or.inr (List.mem_cons_of_mem _ h)
    | succ j =>
      rw [modN] at h
      rcases List.mem_cons.mp h with rfl | h
      · exact Or.inr (List.mem_cons_self _ _)
      · rcases ih h with ⟨c, hc, hu⟩ | h
        · exact Or.inl ⟨c, hc, hu⟩
        · exact Or.inr (List.mem_cons_of_mem _ h)

theorem eraseN_subset {β : Type} {j : Nat} {l : List β} {u : β}
    (h : u ∈ eraseN j l) : u ∈ l := by
  induction l generalizing j with
  | nil => cases j <;> simp [eraseN] at h
  | cons b bs ih =>
    cases j with
    | zero =>
      rw [eraseN] at h
      exact List.mem_cons_of_mem _ h
    | succ j =>
      rw [eraseN] at h
      rcases List.mem_cons.mp h with rfl | h
      · exact List.mem_cons_self _ _
      · exact List.mem_cons_of_mem _ (ih h)

theorem valuesL_eraseN {j : Nat} {cs : List (FibTree α)} {c : FibTree α}
    (h : cs.get? j = some c) :
    (valuesL (eraseN j cs) ++ valuesT c).Perm (valuesL cs) := by
  induction cs generalizing j with
  | nil => cases j <;> simp at h
  | cons b bs ih =>
    cases j with
    | zero =>
      rw [List.get?_cons_zero] at h
      rw [eraseN, Option.some_inj.mp h, valuesL_cons]
      exact List.perm_append_comm
    | succ j =>
      rw [List.get?_cons_succ] at h
      rw [eraseN, valuesL_cons, valuesL_cons, List.append_assoc]
      exact List.Perm.append_left _ (ih h)

theorem valuesL_modN_perm {g : FibTree α → FibTree α} {i : Nat}
    {ts : List (FibTree α)} {t : FibTree α} (h : ts.get? i = some t) :
    (valuesL (modN g i ts) ++ valuesT t).Perm (valuesL ts ++ valuesT (g t)) := by
  induction ts generalizing i with
  | nil => cases i <;> simp at h
  | cons b bs ih =>
    cases i with
    | zero =>
      rw [List.get?_cons_zero] at h
      rw [modN, Option.some_inj.mp h, valuesL_cons, valuesL_cons]
      have h1 : ((valuesT (g t) ++ valuesL bs) ++ valuesT t).Perm
          (valuesT t ++ (valuesL bs ++ valuesT (g t))) :=
        List.perm_append_comm.trans (List.Perm.append_left _ List.perm_append_comm)
      refine h1.trans ?_
      rw [List.append_assoc]
    | succ i =>
      rw [List.get?_cons_succ] at h
      rw [modN, valuesL_cons, valuesL_cons, List.append_assoc, List.append_assoc]
      exact List.Perm.append_left _ (ih h)

/-! ### Path surgery: tree-level navigation -/

theorem getL?_eq (is : List Nat) (j : Nat) (cs : List (FibTree α)) :
    getL? is j cs = match cs.get? j with
      | some c => getT? is c
      | none => none := by
  induction cs generalizing j with
  | nil => cases j <;> rfl
  | cons c cs ih =>
    cases j with
    | zero => rfl
    | succ j => simpa [getL?] using ih j

theorem modL_eq_modN (f : FibTree α → FibTree α) (is : List Nat) (j : Nat)
    (cs : List (FibTree α)) : modL f is j cs = modN (modT f is) j cs := by
  induction cs generalizing j with
  | nil => cases j <;> rfl
  | cons c cs ih =>
    cases j with
    | zero => rfl
    | succ j => simp [modL, modN, ih j]

theorem getT?_append (qIs js : List Nat) (t : FibTree α) :
    getT? (qIs ++ js) t = (getT? qIs t).bind (getT? js) := by
  induction qIs generalizing t with
  | nil => rw [List.nil_append, getT?, Option.some_bind]
  | cons j qIs ih =>
    cases t with
    | node v m cs =>
      rw [List.cons_append, getT?, getT?, getL?_eq, getL?_eq]
      cases hc : cs.get? j with
      | none => rfl
      | some c => exact ih c

theorem modT_nil (f : FibTree α → FibTree α) (t : FibTree α) :
    modT f [] t = f t := by
  rw [modT]

theorem getT?_nil (t : FibTree α) : getT? ([] : List Nat) t = some t := by
  rw [getT?]

theorem modT_cons (f : FibTree α → FibTree α) (j : Nat) (is : List Nat)
    (v : α) (m : Bool) (cs : List (FibTree α)) :
    modT f (j :: is) (.node v m cs) = .node v m (modN (modT f is) j cs) := by
  rw [modT, modL_eq_modN]

theorem getT?_cons (j : Nat) (is : List Nat) (v : α) (m : Bool)
    (cs : List (FibTree α)) :
    getT? (j :: is) (.node v m cs) = match cs.get? j with
      | some c => getT? is c
      | none => none := by
  rw [getT?, getL?_eq]

theorem modT_value_mark {f : FibTree α → FibTree α} {is : List Nat}
    (hne : is ≠ []) (t : FibTree α) :
    (modT f is t).value = t.value ∧ (modT f is t).mark = t.mark := by
  cases is with
  | nil => exact absurd rfl hne
  | cons j is =>
    cases t with
    | node v m cs =>
      rw [modT_cons]
      exact ⟨rfl, rfl⟩

/-- Modifying at an extended path `qIs ++ js` is modifying inside the
subtree found at `qIs`. -/
theorem modT_append (f : FibTree α → FibTree α) (qIs js : List Nat)
    (t : FibTree α) : modT f (qIs ++ js) t = modT (modT f js) qIs t := by
  induction qIs generalizing t with
  | nil => rw [List.nil_append, modT_nil]
  | cons j qIs ih =>
    cases t with
    | node v m cs =>
      rw [List.cons_append, modT_cons, modT_cons]
      congr 1
      have : modT f (qIs ++ js) = fun c => modT (modT f js) qIs c := by
        funext c
        exact ih c
      rw [this]

theorem getT?_modT_self {f : FibTree α → FibTree α} :
    ∀ (is : List Nat) (t x : FibTree α), getT? is t = some x →
    getT? is (modT f is t) = some (f x) := by
  intro is
  induction is with
  | nil =>
    intro t x h
    rw [getT?_nil] at h
    rw [modT_nil, getT?_nil, Option.some_inj.mp h]
  | cons j is ih =>
    intro t x h
    cases t with
    | node v m cs =>
      rw [getT?_cons] at h
      rw [modT_cons, getT?_cons]
      cases hc : cs.get? j with
      | none =>
        rw [hc] at h
        exact absurd h (by simp)
      | some c =>
        rw [hc] at h
        rw [modN_get_self, hc]
        exact ih c x h

theorem valuesT_modT {f : FibTree α → FibTree α} :
    ∀ (is : List Nat) (t x : FibTree α), getT? is t = some x →
    (valuesT (modT f is t) ++ valuesT x).Perm (valuesT t ++ valuesT (f x)) := by
  intro is
  induction is with
  | nil =>
    intro t x h
    rw [getT?_nil] at h
    rw [modT_nil, Option.some_inj.mp h]
    exact List.perm_append_comm
  | cons j is ih =>
    intro t x h
    cases t with
    | node v m cs =>
      rw [getT?_cons] at h
      cases hc : cs.get? j with
      | none =>
        rw [hc] at h
        exact absurd h (by simp)
      | some c =>
        rw [hc] at h
        rw [modT_cons, valuesT_node, valuesT_node]
        have hrec := ih c x h
        have hmod : (valuesL (modN (modT f is) j cs) ++ valuesT c).Perm
            (valuesL cs ++ valuesT (modT f is c)) := valuesL_modN_perm hc
        simp only [List.cons_append]
        refine List.Perm.cons v ?_
        -- chain: modN-values ++ x  ~  cs-values ++ f-x-values
        -- using  modN ++ c ~ cs ++ modT  and  modT ++ x ~ c ++ fx
        have step1 : ((valuesL (modN (modT f is) j cs) ++ valuesT x) ++ valuesT c).Perm
            ((valuesL cs ++ valuesT (f x)) ++ valuesT c) := by
          have a1 : ((valuesL (modN (modT f is) j cs) ++ valuesT x) ++ valuesT c).Perm
              ((valuesL (modN (modT f is) j cs) ++ valuesT c) ++ valuesT x) := by
            rw [List.append_assoc, List.append_assoc]
            exact List.Perm.append_left _ List.perm_append_comm
          have a2 : ((valuesL (modN (modT f is) j cs) ++ valuesT c) ++ valuesT x).Perm
              ((valuesL cs ++ valuesT (modT f is c)) ++ valuesT x) :=
            List.Perm.append_right _ hmod
          have a3 : ((valuesL cs ++ valuesT (modT f is c)) ++ valuesT x).Perm
              (valuesL cs ++ (valuesT (modT f is c) ++ valuesT x)) := by
            rw [List.append_assoc]
          have a4 : (valuesL cs ++ (valuesT (modT f is c) ++ valuesT x)).Perm
              (valuesL cs ++ (valuesT c ++ valuesT (f x))) :=
            List.Perm.append_left _ hrec
          have a5 : (valuesL cs ++ (valuesT c ++ valuesT (f x))).Perm
              ((valuesL cs ++ valuesT (f x)) ++ valuesT c) := by
            rw [List.append_assoc]
            exact List.Perm.append_left _ List.perm_append_comm
          exact (((a1.trans a2).trans a3).trans a4).trans a5
        exact (List.perm_append_right_iff _).mp step1

/-! ### Path surgery: order and values through the forest -/

theorem getT?_cons_some {cs : List (FibTree α)} {j : Nat} {c : FibTree α}
    (hc : cs.get? j = some c) (is : List Nat) (v : α) (m : Bool) :
    getT? (j :: is) (.node v m cs) = getT? is c := by
  rw [getT?_cons, hc]

theorem getT?_cons_none {cs : List (FibTree α)} {j : Nat}
    (hc : cs.get? j = none) (is : List Nat) (v : α) (m : Bool) :
    getT? (j :: is) (.node v m cs) = none := by
  rw [getT?_cons, hc]

theorem ordT_of_getT? {cmp : α → α → Int} :
    ∀ (is : List Nat) (t x : FibTree α), OrdT cmp t → getT? is t = some x →
    OrdT cmp x := by
  intro is
  induction is with
  | nil =>
    intro t x ht h
    rw [getT?_nil] at h
    rw [← Option.some_inj.mp h]
    exact ht
  | cons j is ih =>
    intro t x ht h
    cases t with
    | node v m cs =>
      rw [getT?_cons] at h
      cases hc : cs.get? j with
      | none => rw [hc] at h; exact absurd h (by simp)
      | some c =>
        rw [hc] at h
        exact ih c x (ht.children_ord c (List.get?_mem hc)) h

theorem getT?_values_subset :
    ∀ (is : List Nat) (t x : FibTree α), getT? is t = some x →
    ∀ w ∈ valuesT x, w ∈ valuesT t := by
  intro is
  induction is with
  | nil =>
    intro t x h w hw
    rw [getT?_nil] at h
    rw [← Option.some_inj.mp h] at hw
    exact hw
  | cons j is ih =>
    intro t x h w hw
    cases t with
    | node v m cs =>
      rw [getT?_cons] at h
      cases hc : cs.get? j with
      | none => rw [hc] at h; exact absurd h (by simp)
      | some c =>
        rw [hc] at h
        have := ih c x h w hw
        rw [valuesT_node]
        refine List.mem_cons_of_mem _ (mem_valuesL.mpr ⟨c, List.get?_mem hc, this⟩)

/-- The central ordered-surgery lemma: rewriting the node at a path keeps
the tree heap-ordered provided the new subtree is heap-ordered and its root
value is still dominated by the immediate parent (when there is one). -/
theorem ordT_modT {cmp : α → α → Int} {f : FibTree α → FibTree α} :
    ∀ (is : List Nat) (t x : FibTree α), OrdT cmp t → getT? is t = some x →
    OrdT cmp (f x) →
    (∀ qIs j y, is = qIs ++ [j] → getT? qIs t = some y →
      cmp y.value (f x).value ≤ 0) →
    OrdT cmp (modT f is t) := by
  intro is
  induction is with
  | nil =>
    intro t x ht h hfx hedge
    rw [getT?_nil] at h
    rw [modT_nil, Option.some_inj.mp h]
    exact hfx
  | cons j is ih =>
    intro t x ht h hfx hedge
    cases t with
    | node v m cs =>
      cases hc : cs.get? j with
      | none =>
        rw [getT?_cons_none hc] at h
        exact absurd h (by simp)
      | some c =>
        rw [getT?_cons_some hc] at h
        rw [modT_cons]
        refine OrdT.mk v m _ ?_ ?_
        · intro u hu
          rcases mem_modN hu with ⟨c2, hc2, hu2⟩ | hu2
          · have hcc : c2 = c := by
              rw [hc] at hc2
              exact Option.some_inj.mp hc2.symm
            subst hcc
            subst hu2
            by_cases hne : is = []
            · subst hne
              rw [getT?_nil] at h
              have hcx : c2 = x := Option.some_inj.mp h
              subst hcx
              rw [modT_nil]
              have he := hedge [] j (FibTree.node v m cs) rfl (getT?_nil _)
              simpa using he
            · rw [(modT_value_mark hne c2).1]
              exact ht.value_le c2 (List.get?_mem hc)
          · exact ht.value_le u hu2
        · intro u hu
          rcases mem_modN hu with ⟨c2, hc2, hu2⟩ | hu2
          · have hcc : c2 = c := by
              rw [hc] at hc2
              exact Option.some_inj.mp hc2.symm
            subst hcc
            subst hu2
            refine ih c2 x (ht.children_ord c2 (List.get?_mem hc)) h hfx ?_
            intro qIs j2 y hq hy
            refine hedge (j :: qIs) j2 y (by rw [hq]; rfl) ?_
            rw [getT?_cons_some hc]
            exact hy
          · exact ht.children_ord u hu2

theorem forestMod_length (ts : List (FibTree α)) (i : Nat) (is : List Nat)
    (f : FibTree α → FibTree α) : (forestMod ts i is f).length = ts.length := by
  rw [forestMod, modN_length]

theorem forestMod_get_ne (ts : List (FibTree α)) {i k : Nat} (is : List Nat)
    (f : FibTree α → FibTree α) (h : k ≠ i) :
    (forestMod ts i is f).get? k = ts.get? k := by
  rw [forestMod, modN_get_ne _ ts h]

theorem forestMod_get_self (ts : List (FibTree α)) (i : Nat) (is : List Nat)
    (f : FibTree α → FibTree α) :
    (forestMod ts i is f).get? i = (ts.get? i).map (modT f is) := by
  rw [forestMod, modN_get_self]

theorem forestGet?_eq_some {ts : List (FibTree α)} {i : Nat} {is : List Nat}
    {x : FibTree α} (h : forestGet? ts i is = some x) :
    ∃ t, ts.get? i = some t ∧ getT? is t = some x := by
  rw [forestGet?] at h
  cases ht : ts.get? i with
  | none => rw [ht] at h; exact absurd h (by simp)
  | some t =>
    rw [ht] at h
    exact ⟨t, rfl, h⟩

theorem ordF_at {cmp : α → α → Int} {ts : List (FibTree α)} {i : Nat}
    {is : List Nat} {x : FibTree α} (hord : OrdF cmp ts)
    (h : forestGet? ts i is = some x) : OrdT cmp x := by
  rcases forestGet?_eq_some h with ⟨t, ht, hx⟩
  exact ordT_of_getT? is t x (hord t (List.get?_mem ht)) hx

theorem value_mem_of_forestGet? {ts : List (FibTree α)} {i : Nat}
    {is : List Nat} {x : FibTree α} (h : forestGet? ts i is = some x) :
    x.value ∈ valuesL ts := by
  rcases forestGet?_eq_some h with ⟨t, ht, hx⟩
  exact mem_valuesL.mpr
    ⟨t, List.get?_mem ht, getT?_values_subset is t x hx _ (value_mem_valuesT x)⟩

theorem ordF_forestMod {cmp : α → α → Int} {f : FibTree α → FibTree α}
    {ts : List (FibTree α)} {i : Nat} {is : List Nat} {x : FibTree α}
    (hord : OrdF cmp ts) (h : forestGet? ts i is = some x)
    (hfx : OrdT cmp (f x))
    (hedge : ∀ qIs j y, is = qIs ++ [j] → forestGet? ts i qIs = some y →
      cmp y.value (f x).value ≤ 0) :
    OrdF cmp (forestMod ts i is f) := by
  rcases forestGet?_eq_some h with ⟨t, ht, hx⟩
  intro u hu
  rw [forestMod] at hu
  rcases mem_modN hu with ⟨t2, ht2, hu2⟩ | hu2
  · have htt : t2 = t := by
      rw [ht] at ht2
      exact Option.some_inj.mp ht2.symm
    subst htt
    subst hu2
    refine ordT_modT is t2 x (hord t2 (List.get?_mem ht)) hx hfx ?_
    intro qIs j y hq hy
    refine hedge qIs j y hq ?_
    rw [forestGet?, ht]
    exact hy
  · exact hord u hu2

theorem valuesL_forestMod {f : FibTree α → FibTree α} {ts : List (FibTree α)}
    {i : Nat} {is : List Nat} {x : FibTree α}
    (h : forestGet? ts i is = some x) :
    (valuesL (forestMod ts i is f) ++ valuesT x).Perm
      (valuesL ts ++ valuesT (f x)) := by
  rcases forestGet?_eq_some h with ⟨t, ht, hx⟩
  have hmod : (valuesL (forestMod ts i is f) ++ valuesT t).Perm
      (valuesL ts ++ valuesT (modT f is t)) := by
    rw [forestMod]
    exact valuesL_modN_perm ht
  have hrec : (valuesT (modT f is t) ++ valuesT x).Perm
      (valuesT t ++ valuesT (f x)) := valuesT_modT is t x hx
  have step1 : ((valuesL (forestMod ts i is f) ++ valuesT x) ++ valuesT t).Perm
      ((valuesL ts ++ valuesT (f x)) ++ valuesT t) := by
    have a1 : ((valuesL (forestMod ts i is f) ++ valuesT x) ++ valuesT t).Perm
        ((valuesL (forestMod ts i is f) ++ valuesT t) ++ valuesT x) := by
      rw [List.append_assoc, List.append_assoc]
      exact List.Perm.append_left _ List.perm_append_comm
    have a2 : ((valuesL (forestMod ts i is f) ++ valuesT t) ++ valuesT x).Perm
        ((valuesL ts ++ valuesT (modT f is t)) ++ valuesT x) :=
      List.Perm.append_right _ hmod
    have a3 : ((valuesL ts ++ valuesT (modT f is t)) ++ valuesT x).Perm
        (valuesL ts ++ (valuesT (modT f is t) ++ valuesT x)) := by
      rw [List.append_assoc]
    have a4 : (valuesL ts ++ (valuesT (modT f is t) ++ valuesT x)).Perm
        (valuesL ts ++ (valuesT t ++ valuesT (f x))) :=
      List.Perm.append_left _ hrec
    have a5 : (valuesL ts ++ (valuesT t ++ valuesT (f x))).Perm
        ((valuesL ts ++ valuesT (f x)) ++ valuesT t) := by
      rw [List.append_assoc]
      exact List.Perm.append_left _ List.perm_append_comm
    exact (((a1.trans a2).trans a3).trans a4).trans a5
  exact (List.perm_append_right_iff _).mp step1

/-! ### Cut and cascading cut -/

theorem perm_cancel_aux {β : Type} {A B C D E : List β}
    (h1 : (A ++ D).Perm (B ++ C)) (h2 : (C ++ E).Perm D) :
    (A ++ E).Perm B := by
  refine (List.perm_append_right_iff C).mp ?_
  have a1 : ((A ++ E) ++ C).Perm (A ++ (C ++ E)) := by
    rw [List.append_assoc]
    exact List.Perm.append_left _ List.perm_append_comm
  have a2 : (A ++ (C ++ E)).Perm (A ++ D) := List.Perm.append_left _ h2
  exact (a1.trans a2).trans h1

theorem setValT_node (v w : α) (m : Bool) (cs : List (FibTree α)) :
    setValT v (.node w m cs) = .node v m cs := rfl

theorem setMarkT_node (b : Bool) (v : α) (m : Bool) (cs : List (FibTree α)) :
    setMarkT b (.node v m cs) = .node v b cs := rfl

theorem removeChildT_node (j : Nat) (v : α) (m : Bool) (cs : List (FibTree α)) :
    removeChildT j (.node v m cs) = .node v m (eraseN j cs) := rfl

theorem valuesT_setMarkT (b : Bool) (t : FibTree α) :
    valuesT (setMarkT b t) = valuesT t := by
  cases t with
  | node v m cs => rfl

theorem setMarkT_value (b : Bool) (t : FibTree α) :
    (setMarkT b t).value = t.value := by
  cases t with
  | node v m cs => rfl

theorem setMarkT_mark (b : Bool) (t : FibTree α) :
    (setMarkT b t).mark = b := by
  cases t with
  | node v m cs => rfl

theorem ordT_setMarkT {cmp : α → α → Int} (b : Bool) {t : FibTree α}
    (h : OrdT cmp t) : OrdT cmp (setMarkT b t) := by
  cases t with
  | node v m cs => exact OrdT_of_mark h

theorem setValT_value (v : α) (t : FibTree α) : (setValT v t).value = v := by
  cases t with
  | node w m cs => rfl

theorem setValT_mark (v : α) (t : FibTree α) : (setValT v t).mark = t.mark := by
  cases t with
  | node w m cs => rfl

theorem removeChildT_value (j : Nat) (t : FibTree α) :
    (removeChildT j t).value = t.value := by
  cases t with
  | node v m cs => rfl

theorem removeChildT_mark (j : Nat) (t : FibTree α) :
    (removeChildT j t).mark = t.mark := by
  cases t with
  | node v m cs => rfl

theorem ordT_removeChildT {cmp : α → α → Int} (j : Nat) {t : FibTree α}
    (h : OrdT cmp t) : OrdT cmp (removeChildT j t) := by
  cases t with
  | node v m cs =>
    refine OrdT.mk v m _ ?_ ?_
    · intro c hc
      exact h.value_le c (eraseN_subset hc)
    · intro c hc
      exact h.children_ord c (eraseN_subset hc)

theorem getT?_single (j : Nat) (t : FibTree α) :
    getT? [j] t = t.children.get? j := by
  cases t with
  | node v m cs =>
    cases hc : cs.get? j with
    | none =>
      rw [getT?_cons_none hc]
      simp only [FibTree.children_node]
      exact hc.symm
    | some c =>
      rw [getT?_cons_some hc, getT?_nil]
      simp only [FibTree.children_node]
      exact hc.symm

theorem removeChildT_values {j : Nat} {y x : FibTree α}
    (h : y.children.get? j = some x) :
    (valuesT (removeChildT j y) ++ valuesT x).Perm (valuesT y) := by
  cases y with
  | node v m cs =>
    rw [removeChildT, valuesT_node, valuesT_node]
    simp only [FibTree.children_node] at h
    simp only [List.cons_append]
    exact List.Perm.cons v (valuesL_eraseN h)

theorem forestGet?_append (ts : List (FibTree α)) (i : Nat) (qIs js : List Nat) :
    forestGet? ts i (qIs ++ js) = (forestGet? ts i qIs).bind (getT? js) := by
  rw [forestGet?, forestGet?]
  cases ht : ts.get? i with
  | none => rfl
  | some t => exact getT?_append qIs js t

theorem ordF_edge {cmp : α → α → Int} {ts : List (FibTree α)} {i j : Nat}
    {qIs : List Nat} {y p : FibTree α} (hord : OrdF cmp ts)
    (hy : forestGet? ts i (qIs ++ [j]) = some y)
    (hp : forestGet? ts i qIs = some p) : cmp p.value y.value ≤ 0 := by
  rw [forestGet?_append, hp, Option.some_bind, getT?_single] at hy
  exact (ordF_at hord hp).value_le_children y (List.get?_mem hy)

/-- The bundled facts about one `cut`: heap order, the value multiset, and
the value/mark of every root that already existed are all preserved, and
the freshly appended root is the cut subtree, unmarked. -/
theorem cutAt_spec {cmp : α → α → Int} {ts : List (FibTree α)} {i j : Nat}
    {qIs : List Nat} {x : FibTree α} (hord : OrdF cmp ts)
    (hx : forestGet? ts i (qIs ++ [j]) = some x) :
    OrdF cmp (cutAt ts i qIs j) ∧
    (valuesL (cutAt ts i qIs j)).Perm (valuesL ts) ∧
    (cutAt ts i qIs j).length = ts.length + 1 ∧
    (∀ k, k < ts.length →
      ((cutAt ts i qIs j).get? k).map (fun t => (t.value, t.mark)) =
        (ts.get? k).map (fun t => (t.value, t.mark))) ∧
    (cutAt ts i qIs j).get? ts.length = some (setMarkT false x) := by
  have hy : ∃ y, forestGet? ts i qIs = some y ∧ y.children.get? j = some x := by
    rw [forestGet?_append] at hx
    cases hp : forestGet? ts i qIs with
    | none => rw [hp] at hx; exact absurd hx (by simp)
    | some y =>
      rw [hp, Option.some_bind, getT?_single] at hx
      exact ⟨y, rfl, hx⟩
  rcases hy with ⟨y, hy, hyx⟩
  have hcut : cutAt ts i qIs j =
      forestMod ts i qIs (removeChildT j) ++ [setMarkT false x] := by
    rw [cutAt, hx]
  have hordm : OrdF cmp (forestMod ts i qIs (removeChildT j)) := by
    refine ordF_forestMod hord hy (ordT_removeChildT j (ordF_at hord hy)) ?_
    intro qIs2 j2 p hq hp
    rw [removeChildT_value]
    exact ordF_edge hord (hq ▸ hy) hp
  have hlen : (forestMod ts i qIs (removeChildT j)).length = ts.length :=
    forestMod_length ts i qIs _
  refine ⟨?_, ?_, ?_, ?_, ?_⟩
  · rw [hcut, OrdF_append]
    refine ⟨hordm, ?_⟩
    intro t ht
    simp at ht
    rw [ht]
    exact ordT_setMarkT false (ordF_at hord hx)
  · rw [hcut, valuesL_append]
    simp only [valuesL_cons, valuesL_nil, List.append_nil, valuesT_setMarkT]
    have h1 : (valuesL (forestMod ts i qIs (removeChildT j)) ++ valuesT y).Perm
        (valuesL ts ++ valuesT (removeChildT j y)) := valuesL_forestMod hy
    have h2 : (valuesT (removeChildT j y) ++ valuesT x).Perm (valuesT y) :=
      removeChildT_values hyx
    have := perm_cancel_aux h1 h2
    simpa using this
  · rw [hcut, List.length_append, hlen]
    rfl
  · intro k hk
    rw [hcut]
    rw [List.get?_append (by rw [hlen]; exact hk)]
    by_cases hki : k = i
    · subst hki
      rw [forestMod_get_self]
      cases ht : ts.get? k with
      | none => rfl
      | some t =>
        simp only [Option.map_some']
        by_cases hq : qIs = []
        · subst hq
          rw [modT_nil]
          rw [removeChildT_value, removeChildT_mark]
        · simp only [(modT_value_mark hq t).1, (modT_value_mark hq t).2]
    · rw [forestMod_get_ne ts qIs _ hki]
  · rw [hcut]
    rw [List.get?_append_right (by rw [hlen]), hlen]
    simp

/-! ### Composition of path rewrites -/

theorem modN_comp {β : Type} (f g : β → β) (j : Nat) (l : List β) :
    modN g j (modN f j l) = modN (fun u => g (f u)) j l := by
  induction l generalizing j with
  | nil => cases j <;> rfl
  | cons b bs ih =>
    cases j with
    | zero => rfl
    | succ j => simp [modN, ih j]

theorem modT_comp (f g : FibTree α → FibTree α) :
    ∀ (is : List Nat) (t : FibTree α),
    modT g is (modT f is t) = modT (fun u => g (f u)) is t := by
  intro is
  induction is with
  | nil => intro t; rw [modT_nil, modT_nil, modT_nil]
  | cons j is ih =>
    intro t
    cases t with
    | node v m cs =>
      rw [modT_cons, modT_cons, modT_cons, modN_comp]
      congr 1
      congr 1
      funext c
      exact ih c

theorem eraseN_modN {β : Type} (g : β → β) (j : Nat) (l : List β) :
    eraseN j (modN g j l) = eraseN j l := by
  induction l generalizing j with
  | nil => cases j <;> rfl
  | cons b bs ih =>
    cases j with
    | zero => rfl
    | succ j => simp [modN, eraseN, ih j]

theorem removeChildT_modT_child (f : FibTree α → FibTree α) (j : Nat)
    (y : FibTree α) : removeChildT j (modT f [j] y) = removeChildT j y := by
  cases y with
  | node v m cs =>
    rw [modT_cons, removeChildT, removeChildT, eraseN_modN]

theorem forestMod_append_path (ts : List (FibTree α)) (i : Nat)
    (qIs js : List Nat) (f : FibTree α → FibTree α) :
    forestMod ts i (qIs ++ js) f = forestMod ts i qIs (modT f js) := by
  rw [forestMod, forestMod]
  congr 1
  funext t
  exact modT_append f qIs js t

theorem forestMod_comp (ts : List (FibTree α)) (i : Nat) (is : List Nat)
    (f g : FibTree α → FibTree α) :
    forestMod (forestMod ts i is f) i is g =
      forestMod ts i is (fun u => g (f u)) := by
  rw [forestMod, forestMod, forestMod, modN_comp]
  congr 1
  funext t
  exact modT_comp f g is t

theorem forestGet?_forestMod_self {ts : List (FibTree α)} {i : Nat}
    {is : List Nat} {y : FibTree α} (f : FibTree α → FibTree α)
    (h : forestGet? ts i is = some y) :
    forestGet? (forestMod ts i is f) i is = some (f y) := by
  rcases forestGet?_eq_some h with ⟨t, ht, hy⟩
  rw [forestGet?, forestMod, modN_get_self, ht]
  simp only [Option.map_some']
  exact getT?_modT_self is t y hy

theorem perm_snoc_of_append {β : Type} {A B C : List β} {a b : β}
    (h : (A ++ (a :: C)).Perm (B ++ (b :: C))) :
    (A ++ [a]).Perm (B ++ [b]) := by
  refine (List.perm_append_right_iff C).mp ?_
  rw [List.append_assoc, List.append_assoc]
  exact h

/-! ### The minimum update and `BECOME_MIN_NODE` -/

theorem valuesL_moveFront {ts : List (FibTree α)} (k : Nat) :
    (valuesL (moveFront ts k)).Perm (valuesL ts) := by
  rw [moveFront]
  cases hk : ts.get? k with
  | none => exact List.Perm.refl _
  | some u =>
    have := valuesL_eraseN hk
    rw [valuesL_cons]
    exact (List.perm_append_comm.trans this)

theorem ordF_moveFront {cmp : α → α → Int} {ts : List (FibTree α)} (k : Nat)
    (hord : OrdF cmp ts) : OrdF cmp (moveFront ts k) := by
  rw [moveFront]
  cases hk : ts.get? k with
  | none => exact hord
  | some u =>
    intro t ht
    rcases List.mem_cons.mp ht with rfl | ht
    · exact hord t (List.get?_mem hk)
    · exact hord t (eraseN_subset ht)

theorem valuesL_minUpdate (cmp : α → α → Int) (ts : List (FibTree α))
    (k : Nat) (v : α) :
    (valuesL (minUpdate cmp ts k v)).Perm (valuesL ts) := by
  cases ts with
  | nil => exact List.Perm.refl _
  | cons m rest =>
    rw [minUpdate]
    by_cases hlt : cmp v m.value < 0
    · rw [if_pos hlt]
      cases hk : (m :: rest).get? k with
      | none => exact List.Perm.refl _
      | some u =>
        have := valuesL_eraseN hk
        rw [valuesL_cons]
        exact (List.perm_append_comm.trans this)
    · rw [if_neg hlt]

theorem ordF_minUpdate {cmp : α → α → Int} {ts : List (FibTree α)}
    (k : Nat) (v : α) (hord : OrdF cmp ts) :
    OrdF cmp (minUpdate cmp ts k v) := by
  cases ts with
  | nil => exact hord
  | cons m rest =>
    rw [minUpdate]
    by_cases hlt : cmp v m.value < 0
    · rw [if_pos hlt]
      cases hk : (m :: rest).get? k with
      | none => exact hord
      | some u =>
        intro t ht
        rcases List.mem_cons.mp ht with rfl | ht
        · exact hord t (List.get?_mem hk)
        · exact hord t (eraseN_subset ht)
    · rw [if_neg hlt]
      exact hord

/-- The final `min` update of `fibheap_decrease`: if every value of the
list is either dominated by the head or equal to the decreased value `v`,
and the node at `k` carries `v`, the update restores the head-minimum
invariant. -/
theorem minUpdate_headMin {cmp : α → α → Int} (hc : CmpOK cmp)
    {ts : List (FibTree α)} {k : Nat} {u : FibTree α} {v : α}
    (hk : ts.get? k = some u) (huv : u.value = v)
    (hP : ∀ mh ∈ ts.head?, ∀ w ∈ valuesL ts, cmp mh.value w ≤ 0 ∨ w = v) :
    HeadMin cmp (minUpdate cmp ts k v) := by
  cases ts with
  | nil =>
    intro m hm
    simp [minUpdate] at hm
  | cons m rest =>
    rw [minUpdate]
    by_cases hlt : cmp v m.value < 0
    · rw [if_pos hlt, hk]
      intro m' hm' w hw
      have hm2 : m' = u := by symm; simpa using hm'
      rw [hm2, huv]
      have hw2 : w ∈ valuesL (m :: rest) := by
        have hperm : (valuesL (u :: eraseN k (m :: rest))).Perm
            (valuesL (m :: rest)) := by
          have := valuesL_eraseN hk
          rw [valuesL_cons]
          exact (List.perm_append_comm.trans this)
        exact hperm.mem_iff.mp hw
      rcases hP m (by simp) w hw2 with hw3 | hw3
      · exact hc.lt_le_trans hlt hw3
      · rw [hw3]
        exact hc.le_refl v
    · rw [if_neg hlt]
      intro m' hm' w hw
      have hm2 : m' = m := by symm; simpa using hm'
      rw [hm2]
      rcases hP m (by simp) w hw with hw3 | hw3
      · exact hw3
      · rw [hw3]
        exact hc.le_of_not_lt hlt

/-! ### The client value write before `fibheap_decrease` -/

theorem setValAt_lookup {ts : List (FibTree α)} {i : Nat} {is : List Nat}
    {x : FibTree α} (v : α) (hx : forestGet? ts i is = some x) :
    forestGet? (setValAt ts i is v) i is = some (setValT v x) :=
  forestGet?_forestMod_self (setValT v) hx

theorem setValAt_vals {ts : List (FibTree α)} {i : Nat} {is : List Nat}
    {x : FibTree α} (v : α) (hx : forestGet? ts i is = some x) :
    (valuesL (setValAt ts i is v) ++ [x.value]).Perm (valuesL ts ++ [v]) := by
  have h := valuesL_forestMod (f := setValT v) hx
  cases x with
  | node xv xm xcs =>
    rw [setValAt]
    simp only [valuesT_node, FibTree.value_node] at h ⊢
    exact perm_snoc_of_append h

theorem setValAt_mem {ts : List (FibTree α)} {i : Nat} {is : List Nat}
    {x : FibTree α} {v w : α} (hx : forestGet? ts i is = some x)
    (hw : w ∈ valuesL (setValAt ts i is v)) : w ∈ valuesL ts ∨ w = v := by
  have h := (setValAt_vals v hx).mem_iff.mp (by
    exact List.mem_append_left _ hw)
  rcases List.mem_append.mp h with h | h
  · exact Or.inl h
  · simp at h
    exact Or.inr h

/-! ### Marks of roots through the operations -/

theorem modT_mark_pres {f : FibTree α → FibTree α} {is : List Nat}
    (hf : is ≠ [] ∨ ∀ u, (f u).mark = u.mark) (t : FibTree α) :
    (modT f is t).mark = t.mark := by
  cases is with
  | nil =>
    rcases hf with hf | hf
    · exact absurd rfl hf
    · rw [modT_nil]
      exact hf t
  | cons j is =>
    cases t with
    | node v m cs => rw [modT_cons]; rfl

theorem noMarked_forestMod {ts : List (FibTree α)} {i : Nat} {is : List Nat}
    {f : FibTree α → FibTree α}
    (hf : is ≠ [] ∨ ∀ u, (f u).mark = u.mark)
    (h : NoMarkedRoot ts) : NoMarkedRoot (forestMod ts i is f) := by
  intro t ht
  rw [forestMod] at ht
  rcases mem_modN ht with ⟨c, hc, rfl⟩ | ht
  · rw [modT_mark_pres hf c]
    exact h c (List.get?_mem hc)
  · exact h t ht

theorem noMarked_cutAt {ts : List (FibTree α)} {i j : Nat} {qIs : List Nat}
    (h : NoMarkedRoot ts) : NoMarkedRoot (cutAt ts i qIs j) := by
  rw [cutAt]
  cases hx : forestGet? ts i (qIs ++ [j]) with
  | none => exact h
  | some x =>
    intro t ht
    rcases List.mem_append.mp ht with ht | ht
    · exact noMarked_forestMod (Or.inr (removeChildT_mark j)) h t ht
    · simp at ht
      rw [ht, setMarkT_mark]

theorem noMarked_setMarkAt {ts : List (FibTree α)} {i : Nat} {is : List Nat}
    (hne : is ≠ []) (h : NoMarkedRoot ts) : NoMarkedRoot (setMarkAt ts i is) :=
  noMarked_forestMod (Or.inl hne) h

/-! ### `SET_MARK` at a valid non-root path -/

theorem setMarkAt_spec {cmp : α → α → Int} {ts : List (FibTree α)} {i : Nat}
    {is : List Nat} {y : FibTree α} (hord : OrdF cmp ts)
    (hy : forestGet? ts i is = some y) (hne : is ≠ []) :
    OrdF cmp (setMarkAt ts i is) ∧
    (valuesL (setMarkAt ts i is)).Perm (valuesL ts) ∧
    (setMarkAt ts i is).length = ts.length ∧
    (∀ k, ((setMarkAt ts i is).get? k).map (fun t => (t.value, t.mark)) =
      (ts.get? k).map (fun t => (t.value, t.mark))) := by
  refine ⟨?_, ?_, forestMod_length ts i is _, ?_⟩
  · refine ordF_forestMod hord hy (ordT_setMarkT true (ordF_at hord hy)) ?_
    intro qIs j p hq hp
    rw [setMarkT_value]
    exact ordF_edge hord (hq ▸ hy) hp
  · have h := valuesL_forestMod (f := setMarkT true) hy
    rw [valuesT_setMarkT] at h
    exact (List.perm_append_right_iff _).mp h
  · intro k
    by_cases hki : k = i
    · subst hki
      rw [setMarkAt, forestMod_get_self]
      cases ht : ts.get? k with
      | none => rfl
      | some t =>
        simp only [Option.map_some']
        simp only [(modT_value_mark hne t).1, (modT_value_mark hne t).2]
    · rw [setMarkAt, forestMod_get_ne ts is _ hki]

/-! ### The cascading cut -/

theorem casc_spec {cmp : α → α → Int} :
    ∀ (isRev : List Nat) (ts : List (FibTree α)) (i : Nat), OrdF cmp ts →
    OrdF cmp (cascading_cut ts i isRev) ∧
    (valuesL (cascading_cut ts i isRev)).Perm (valuesL ts) ∧
    ts.length ≤ (cascading_cut ts i isRev).length ∧
    (∀ k, k < ts.length →
      ((cascading_cut ts i isRev).get? k).map (fun t => (t.value, t.mark)) =
        (ts.get? k).map (fun t => (t.value, t.mark))) ∧
    (NoMarkedRoot ts → NoMarkedRoot (cascading_cut ts i isRev)) := by
  intro isRev
  induction isRev with
  | nil =>
    intro ts i hord
    rw [cascading_cut]
    exact ⟨hord, List.Perm.refl _, Nat.le_refl _, fun k hk => rfl, fun hnm => hnm⟩
  | cons j restRev ih =>
    intro ts i hord
    rw [cascading_cut]
    split
    · exact ⟨hord, List.Perm.refl _, Nat.le_refl _, fun k hk => rfl, fun hnm => hnm⟩
    · rename_i y hy
      by_cases hmark : y.mark = true
      · rw [if_pos hmark]
        rcases cutAt_spec hord hy with ⟨c1, c2, c3, c4, c5⟩
        rcases ih (cutAt ts i restRev.reverse j) i c1 with ⟨i1, i2, i3, i4, i5⟩
        refine ⟨i1, i2.trans c2, ?_, ?_, ?_⟩
        · rw [c3] at i3
          omega
        · intro k hk
          have hk1 : k < (cutAt ts i restRev.reverse j).length := by
            rw [c3]; omega
          rw [i4 k hk1, c4 k hk]
        · intro hnm
          exact i5 (noMarked_cutAt hnm)
      · rw [if_neg hmark]
        rcases setMarkAt_spec hord hy (by simp) with ⟨s1, s2, s3, s4⟩
        exact ⟨s1, s2, by rw [s3], fun k hk => s4 k, noMarked_setMarkAt (by simp)⟩

/-! ### Small facts feeding the decrease/delete proofs -/

theorem get?_lt_length {β : Type} {ts : List β} {i : Nat} {t : β}
    (h : ts.get? i = some t) : i < ts.length := by
  by_contra hge
  rw [List.get?_eq_getElem?, List.getElem?_eq_none (Nat.le_of_not_lt hge)] at h
  exact absurd h (by simp)

theorem head?_eq_get? {β : Type} (ts : List β) : ts.head? = ts.get? 0 := by
  cases ts <;> rfl

theorem forestGet?_nil (ts : List (FibTree α)) (i : Nat) :
    forestGet? ts i [] = ts.get? i := by
  rw [forestGet?]
  cases ht : ts.get? i with
  | none => rfl
  | some t => exact getT?_nil t

theorem ordT_setValT {cmp : α → α → Int} (hc : CmpOK cmp) {x : FibTree α}
    {v : α} (hx : OrdT cmp x) (hpre : cmp v x.value ≤ 0) :
    OrdT cmp (setValT v x) := by
  cases x with
  | node xv xm xcs =>
    refine OrdT.mk v xm xcs ?_ hx.children_ord
    intro c hcm
    exact hc.le_trans v xv c.value hpre (hx.value_le c hcm)

theorem noMarked_minUpdate {cmp : α → α → Int} {ts : List (FibTree α)}
    (k : Nat) (v : α) (h : NoMarkedRoot ts) :
    NoMarkedRoot (minUpdate cmp ts k v) := by
  cases ts with
  | nil => exact h
  | cons m rest =>
    rw [minUpdate]
    by_cases hlt : cmp v m.value < 0
    · rw [if_pos hlt]
      cases hk : (m :: rest).get? k with
      | none => exact h
      | some u =>
        intro t ht
        rcases List.mem_cons.mp ht with rfl | ht
        · exact h t (List.get?_mem hk)
        · exact h t (eraseN_subset ht)
    · rw [if_neg hlt]
      exact h

theorem noMarked_moveFront {ts : List (FibTree α)} (k : Nat)
    (h : NoMarkedRoot ts) : NoMarkedRoot (moveFront ts k) := by
  rw [moveFront]
  cases hk : ts.get? k with
  | none => exact h
  | some u =>
    intro t ht
    rcases List.mem_cons.mp ht with rfl | ht
    · exact h t (List.get?_mem hk)
    · exact h t (eraseN_subset ht)

/-- A value-and-mark-preserving rewrite anywhere in a tree leaves the value
and mark of every root unchanged. -/
theorem forestMod_vm_pres {ts : List (FibTree α)} {i : Nat} {qIs : List Nat}
    {f : FibTree α → FibTree α}
    (hf : ∀ u, (f u).value = u.value ∧ (f u).mark = u.mark) (k : Nat) :
    ((forestMod ts i qIs f).get? k).map (fun t => (t.value, t.mark)) =
      (ts.get? k).map (fun t => (t.value, t.mark)) := by
  by_cases hki : k = i
  · subst hki
    rw [forestMod_get_self]
    cases ht : ts.get? k with
    | none => rfl
    | some t =>
      simp only [Option.map_some']
      by_cases hq : qIs = []
      · subst hq
        rw [modT_nil, (hf t).1, (hf t).2]
      · simp only [(modT_value_mark hq t).1, (modT_value_mark hq t).2]
  · rw [forestMod_get_ne ts qIs _ hki]

theorem perm_cons_snoc_swap {β : Type} (a b : β) (C : List β) :
    ((a :: C) ++ [b]).Perm ((b :: C) ++ [a]) := by
  have h1 : ((a :: C) ++ [b]).Perm (a :: (b :: C)) := by
    rw [List.cons_append]
    exact List.Perm.cons a List.perm_append_comm
  have h2 : (a :: (b :: C)).Perm (b :: (a :: C)) := List.Perm.swap b a C
  have h3 : (b :: (a :: C)).Perm ((b :: C) ++ [a]) := by
    rw [List.cons_append]
    exact List.Perm.cons b (@List.perm_append_comm _ C [a]).symm
  exact (h1.trans h2).trans h3

/-- Everything `fibheap_decrease` preserves, when used on a valid node and
under its documented precondition: heap order, the head-minimum invariant,
the value multiset (one occurrence of the old value replaced by the new
one), the comparator, the count, and unmarked roots. -/
theorem decrease_wf {cmp : α → α → Int} (hc : CmpOK cmp) (h : Fibheap α)
    (i : Nat) (is : List Nat) (v : α) (x : FibTree α)
    (hcm : h.cmp = cmp) (hord : OrdF cmp h.roots) (hmin : HeadMin cmp h.roots)
    (hx : forestGet? h.roots i is = some x) (hpre : cmp v x.value ≤ 0) :
    OrdF cmp (fibheap_decrease h i is v).roots ∧
    HeadMin cmp (fibheap_decrease h i is v).roots ∧
    (valuesL (fibheap_decrease h i is v).roots ++ [x.value]).Perm
      (valuesL h.roots ++ [v]) ∧
    (fibheap_decrease h i is v).cmp = h.cmp ∧
    (fibheap_decrease h i is v).n = h.n ∧
    (NoMarkedRoot h.roots → NoMarkedRoot (fibheap_decrease h i is v).roots) := by
  subst hcm
  have hilt : i < h.roots.length := by
    rcases forestGet?_eq_some hx with ⟨t, ht, _⟩
    exact get?_lt_length ht
  have hne : h.roots ≠ [] := List.ne_nil_of_length_pos (by omega)
  have hm : h.roots.head? = some (h.roots.head hne) := List.head?_eq_head hne
  have hordx : OrdT h.cmp x := ordF_at hord hx
  by_cases hise : is.isEmpty
  · -- x is a root: value write, then the min update
    have his : is = [] := by simpa [List.isEmpty_iff] using hise
    subst his
    rw [fibheap_decrease]
    simp only [List.isEmpty_nil, if_true]
    have hx0 : h.roots.get? i = some x := by rw [← forestGet?_nil]; exact hx
    have hlook : (setValAt h.roots i [] v).get? i = some (setValT v x) := by
      rw [← forestGet?_nil]
      exact setValAt_lookup v hx
    have hord0 : OrdF h.cmp (setValAt h.roots i [] v) := by
      refine ordF_forestMod hord hx (ordT_setValT hc hordx hpre) ?_
      intro qIs j y hq hy
      exact absurd hq (by simp)
    refine ⟨?_, ?_, ?_, by trivial, by trivial, ?_⟩
    · exact ordF_minUpdate i v hord0
    · refine minUpdate_headMin hc hlook (setValT_value v x) ?_
      intro mh hmh w hw
      rcases setValAt_mem hx hw with hw2 | hw2
      · -- w is an old value; relate the head of ts0 to the head of ts
        by_cases hi0 : i = 0
        · subst hi0
          have : (setValAt h.roots 0 [] v).get? 0 = some (setValT v x) := hlook
          rw [head?_eq_get?, this] at hmh
          have hmh2 : mh = setValT v x := by symm; simpa using hmh
          rw [hmh2, setValT_value]
          have hhead : h.roots.head? = some x := by
            rw [head?_eq_get?]
            exact hx0
          exact Or.inl (hc.le_trans v x.value w hpre (hmin x hhead w hw2))
        · have hsame : (setValAt h.roots i [] v).get? 0 = h.roots.get? 0 := by
            rw [setValAt, forestMod_get_ne _ _ _ (fun hcon => hi0 hcon.symm)]
          rw [head?_eq_get?, hsame, ← head?_eq_get?] at hmh
          exact Or.inl (hmin mh hmh w hw2)
      · exact Or.inr hw2
    · refine ((valuesL_minUpdate h.cmp _ i v).append_right _).trans ?_
      exact setValAt_vals v hx
    · intro hnm
      refine noMarked_minUpdate i v ?_
      exact noMarked_forestMod (Or.inr (setValT_mark v)) hnm
  · -- x has a parent
    have hisne : is ≠ [] := by simpa [List.isEmpty_iff] using hise
    obtain ⟨qIs, j, rfl⟩ : ∃ qIs j, is = qIs ++ [j] :=
      ⟨is.dropLast, is.getLast hisne, (List.dropLast_append_getLast hisne).symm⟩
    -- the parent in the original heap
    have hy0 : ∃ y0, forestGet? h.roots i qIs = some y0 ∧
        y0.children.get? j = some x := by
      have hx2 := hx
      rw [forestGet?_append] at hx2
      cases hp : forestGet? h.roots i qIs with
      | none => rw [hp] at hx2; exact absurd hx2 (by simp)
      | some y0 =>
        rw [hp, Option.some_bind, getT?_single] at hx2
        exact ⟨y0, rfl, hx2⟩
    rcases hy0 with ⟨y0, hy0, hy0x⟩
    have hmy0 : h.cmp (h.roots.head hne).value y0.value ≤ 0 :=
      hmin _ hm _ (value_mem_of_forestGet? hy0)
    -- the value write, rephrased as a rewrite inside the parent
    have hts0 : setValAt h.roots i (qIs ++ [j]) v =
        forestMod h.roots i qIs (modT (setValT v) [j]) := by
      rw [setValAt, forestMod_append_path]
    have hy : forestGet? (setValAt h.roots i (qIs ++ [j]) v) i qIs =
        some (modT (setValT v) [j] y0) := by
      rw [hts0]
      exact forestGet?_forestMod_self _ hy0
    have hyval : (modT (setValT v) [j] y0).value = y0.value :=
      (modT_value_mark (by simp) y0).1
    have hx0 : forestGet? (setValAt h.roots i (qIs ++ [j]) v) i (qIs ++ [j]) =
        some (setValT v x) := setValAt_lookup v hx
    rw [fibheap_decrease]
    simp only [hise, if_false, List.dropLast_concat, List.getLast?_concat, hy,
      Bool.false_eq_true]
    by_cases hcut : h.cmp v (modT (setValT v) [j] y0).value < 0
    · rw [if_pos hcut]
      -- the cut branch: cutting the decreased node restores heap order
      have hk0 : (setValAt h.roots i (qIs ++ [j]) v).length = h.roots.length := by
        rw [setValAt, forestMod_length]
      -- the cut commutes with the value write
      have hfe : (fun u => removeChildT j (modT (setValT v) [j] u)) =
          removeChildT (α := α) j := by
        funext u
        exact removeChildT_modT_child (setValT v) j u
      have hts1 : cutAt (setValAt h.roots i (qIs ++ [j]) v) i qIs j =
          forestMod h.roots i qIs (removeChildT j) ++
            [setMarkT false (setValT v x)] := by
        rw [cutAt, hx0]
        show forestMod (setValAt h.roots i (qIs ++ [j]) v) i qIs (removeChildT j) ++
            [setMarkT false (setValT v x)] = _
        rw [hts0, forestMod_comp, hfe]
      -- order and values of the forest right after the cut
      have hordfm : OrdF h.cmp (forestMod h.roots i qIs (removeChildT j)) := by
        refine ordF_forestMod hord hy0 (ordT_removeChildT j (ordF_at hord hy0)) ?_
        intro qIs2 j2 p hq hp
        rw [removeChildT_value]
        exact ordF_edge hord (hq ▸ hy0) hp
      have hord1 : OrdF h.cmp (cutAt (setValAt h.roots i (qIs ++ [j]) v) i qIs j) := by
        rw [hts1, OrdF_append]
        refine ⟨hordfm, ?_⟩
        intro t ht
        simp at ht
        rw [ht]
        exact ordT_setMarkT false (ordT_setValT hc hordx hpre)
      have hvals1 : (valuesL (cutAt (setValAt h.roots i (qIs ++ [j]) v) i qIs j) ++
          [x.value]).Perm (valuesL h.roots ++ [v]) := by
        rw [hts1, valuesL_append]
        have hgen := (cutAt_spec hord hx).2.1
        rw [cutAt, hx, valuesL_append] at hgen
        simp only [valuesL_cons, valuesL_nil, List.append_nil, valuesT_setMarkT] at hgen ⊢
        cases x with
        | node xv xm xcs =>
          rw [setValT_node]
          simp only [valuesT_node, FibTree.value_node] at hgen ⊢
          have step : ((valuesL (forestMod h.roots i qIs (removeChildT j)) ++
              (v :: valuesL xcs)) ++ [xv]).Perm
              ((valuesL (forestMod h.roots i qIs (removeChildT j)) ++
              (xv :: valuesL xcs)) ++ [v]) := by
            rw [List.append_assoc, List.append_assoc]
            exact List.Perm.append_left _ (perm_cons_snoc_swap v xv (valuesL xcs))
          refine step.trans ?_
          exact List.Perm.append_right _ hgen
      -- cascading cut on the (now well-ordered) forest
      have hlen1 : (cutAt (setValAt h.roots i (qIs ++ [j]) v) i qIs j).length =
          h.roots.length + 1 := by
        rw [hts1, List.length_append, forestMod_length]
        rfl
      have hat1 : (cutAt (setValAt h.roots i (qIs ++ [j]) v) i qIs j).get?
          h.roots.length = some (setMarkT false (setValT v x)) := by
        rw [hts1, List.get?_append_right (by rw [forestMod_length]), forestMod_length]
        simp
      rcases casc_spec qIs.reverse _ i hord1 with ⟨i1, i2, i3, i4, i5⟩
      have hk2 : ∃ u, (cascading_cut (cutAt (setValAt h.roots i (qIs ++ [j]) v) i qIs j)
          i qIs.reverse).get? h.roots.length = some u ∧ u.value = v ∧ u.mark = false := by
        have := i4 h.roots.length (by rw [hlen1]; omega)
        rw [hat1] at this
        cases hu : (cascading_cut (cutAt (setValAt h.roots i (qIs ++ [j]) v) i qIs j)
            i qIs.reverse).get? h.roots.length with
        | none => rw [hu] at this; exact absurd this (by simp)
        | some u =>
          rw [hu] at this
          simp only [Option.map_some'] at this
          have hp := Option.some_inj.mp this
          refine ⟨u, rfl, ?_, ?_⟩
          · have := congrArg Prod.fst hp
            simpa [setMarkT_value, setValT_value] using this
          · have := congrArg Prod.snd hp
            simpa [setMarkT_mark] using this
      rcases hk2 with ⟨u, hu, huv, hum⟩
      have hvals2 : (valuesL (cascading_cut
          (cutAt (setValAt h.roots i (qIs ++ [j]) v) i qIs j) i qIs.reverse) ++
          [x.value]).Perm (valuesL h.roots ++ [v]) :=
        (i2.append_right _).trans hvals1
      rw [hk0]
      refine ⟨?_, ?_, ?_, by trivial, by trivial, ?_⟩
      · exact ordF_minUpdate _ v i1
      · refine minUpdate_headMin hc hu huv ?_
        intro mh hmh w hw
        -- the head value is untouched through the write, the cut and the cascade
        have hw2 : w ∈ valuesL h.roots ∨ w = v := by
          have hmem : w ∈ valuesL h.roots ++ [v] :=
            hvals2.mem_iff.mp (List.mem_append_left _ hw)
          rcases List.mem_append.mp hmem with hmem | hmem
          · exact Or.inl hmem
          · simp at hmem
            exact Or.inr hmem
        rcases hw2 with hw2 | hw2
        · -- relate mh to the original head
          have hvm0 : ((cascading_cut (cutAt (setValAt h.roots i (qIs ++ [j]) v)
              i qIs j) i qIs.reverse).get? 0).map (fun t => (t.value, t.mark)) =
              (h.roots.get? 0).map (fun t => (t.value, t.mark)) := by
            rw [i4 0 (by rw [hlen1]; omega)]
            rw [hts1, List.get?_append (by rw [forestMod_length]; omega)]
            have hvm1 := @forestMod_vm_pres α h.roots i qIs (removeChildT j)
              (fun u => ⟨removeChildT_value j u, removeChildT_mark j u⟩) 0
            rw [hvm1]
          rw [head?_eq_get?] at hmh
          have hmhead : mh.value = (h.roots.head hne).value := by
            rw [head?_eq_get?] at hm
            rw [hmh] at hvm0
            rw [hm] at hvm0
            simp only [Option.map_some'] at hvm0
            exact congrArg Prod.fst (Option.some_inj.mp hvm0)
          rw [hmhead]
          exact Or.inl (hmin _ hm w hw2)
        · exact Or.inr hw2
      · exact ((valuesL_minUpdate _ _ _ v).append_right _).trans hvals2
      · intro hnm
        refine noMarked_minUpdate _ v (i5 ?_)
        rw [hts1]
        intro t ht
        rcases List.mem_append.mp ht with ht | ht
        · exact noMarked_forestMod (Or.inr (removeChildT_mark j)) hnm t ht
        · simp at ht
          rw [ht, setMarkT_mark]
    · rw [if_neg hcut]
      -- no cut: the new value still respects the parent, nothing moves
      have hyv : h.cmp (modT (setValT v) [j] y0).value v ≤ 0 :=
        (hc.not_lt v _).mp hcut
      have hmv : h.cmp (h.roots.head hne).value v ≤ 0 := by
        refine hc.le_trans _ y0.value v hmy0 ?_
        rw [← hyval]
        exact hyv
      have hord0 : OrdF h.cmp (setValAt h.roots i (qIs ++ [j]) v) := by
        refine ordF_forestMod hord hx (ordT_setValT hc hordx hpre) ?_
        intro qIs2 j2 p hq hp
        have hq2 : qIs2 = qIs := by
          have hdl := congrArg List.dropLast hq
          rw [List.dropLast_concat, List.dropLast_concat] at hdl
          exact hdl.symm
        subst hq2
        have hpy : p = y0 := by
          rw [hy0] at hp
          exact Option.some_inj.mp hp.symm
        subst hpy
        rw [setValT_value, ← hyval]
        exact hyv
      -- the head value of the written forest
      have hhead0 : (setValAt h.roots i (qIs ++ [j]) v).get? 0 =
          some ((setValAt h.roots i (qIs ++ [j]) v).head (by
            have := forestMod_length h.roots i qIs (modT (setValT v) [j])
            rw [← hts0] at this
            exact List.ne_nil_of_length_pos (by rw [this]; omega))) := by
        exact (head?_eq_get? _) ▸ List.head?_eq_head _
      have hheadval : ((setValAt h.roots i (qIs ++ [j]) v).get? 0).map
          (fun t => (t.value, t.mark)) = (h.roots.get? 0).map
          (fun t => (t.value, t.mark)) := by
        rw [hts0]
        exact forestMod_vm_pres
          (fun u => (modT_value_mark (by simp) u)) 0
      -- `minUpdateDeep` does not fire
      have hts0ne : setValAt h.roots i (qIs ++ [j]) v ≠ [] := by
        have := forestMod_length h.roots i qIs (modT (setValT v) [j])
        rw [← hts0] at this
        exact List.ne_nil_of_length_pos (by rw [this]; omega)
      cases hts : setValAt h.roots i (qIs ++ [j]) v with
      | nil => exact absurd hts hts0ne
      | cons m0 rest0 =>
        rw [minUpdateDeep]
        have hm0 : m0.value = (h.roots.head hne).value := by
          rw [hts] at hheadval
          rw [head?_eq_get?] at hm
          rw [hm] at hheadval
          simp only [List.get?_cons_zero, Option.map_some'] at hheadval
          exact congrArg Prod.fst (Option.some_inj.mp hheadval)
        have hnolt : ¬ h.cmp v m0.value < 0 := by
          rw [hm0]
          exact (hc.not_lt v _).mpr hmv
        rw [if_neg hnolt]
        rw [← hts]
        refine ⟨hord0, ?_, setValAt_vals v hx, by trivial, by trivial, ?_⟩
        · intro mh hmh w hw
          have hmhv : mh.value = (h.roots.head hne).value := by
            rw [head?_eq_get?] at hmh
            rw [hmh] at hheadval
            rw [head?_eq_get?] at hm
            rw [hm] at hheadval
            simp only [Option.map_some'] at hheadval
            exact congrArg Prod.fst (Option.some_inj.mp hheadval)
          rcases setValAt_mem hx hw with hw2 | hw2
          · rw [hmhv]
            exact hmin _ hm w hw2
          · rw [hw2, hmhv]
            exact hmv
        · intro hnm
          exact noMarked_forestMod (Or.inr (setValT_mark v)) hnm

/-- What `fibheap_delete` preserves and changes on a valid node: heap order
and the head minimum are restored, exactly the node's value leaves the
multiset, and the count drops by one. -/
theorem delete_wf {cmp : α → α → Int} (hc : CmpOK cmp) (h : Fibheap α)
    (i : Nat) (is : List Nat) (x : FibTree α)
    (hcm : h.cmp = cmp) (hord : OrdF cmp h.roots)
    (hx : forestGet? h.roots i is = some x) :
    OrdF cmp (fibheap_delete h i is).roots ∧
    HeadMin cmp (fibheap_delete h i is).roots ∧
    (valuesL (fibheap_delete h i is).roots ++ [x.value]).Perm
      (valuesL h.roots) ∧
    (fibheap_delete h i is).cmp = h.cmp ∧
    (fibheap_delete h i is).n = h.n - 1 := by
  subst hcm
  by_cases hise : is.isEmpty
  · have his : is = [] := by simpa [List.isEmpty_iff] using hise
    subst his
    have hx0 : h.roots.get? i = some x := by rw [← forestGet?_nil]; exact hx
    rw [fibheap_delete]
    simp only [List.isEmpty_nil, if_true]
    have hmv : moveFront h.roots i = x :: eraseN i h.roots := by
      rw [moveFront, hx0]
    have hr : ({ h with roots := moveFront h.roots i } : Fibheap α).roots =
        x :: eraseN i h.roots := hmv
    have hord1 : OrdF h.cmp ({ h with roots := moveFront h.roots i } : Fibheap α).roots :=
      ordF_moveFront i hord
    refine ⟨extract_ord hc _ rfl hord1, extract_headMin hc _ rfl hord1, ?_, ?_, ?_⟩
    · have hv := extract_vals _ hr
      refine (hv.append_right _).trans ?_
      cases x with
      | node xv xm xcs =>
        have step : ((valuesL (eraseN i h.roots) ++ valuesL xcs) ++ [xv]).Perm
            (valuesL (eraseN i h.roots) ++ valuesT (FibTree.node xv xm xcs)) := by
          rw [List.append_assoc, valuesT_node]
          exact List.Perm.append_left _
            ((List.perm_append_comm).trans (List.Perm.refl _))
        simp only [FibTree.children_node]
        refine step.trans ?_
        exact valuesL_eraseN hx0
    · exact extract_cmp _
    · exact extract_n _ hr
  · have hisne : is ≠ [] := by simpa [List.isEmpty_iff] using hise
    obtain ⟨qIs, j, rfl⟩ : ∃ qIs j, is = qIs ++ [j] :=
      ⟨is.dropLast, is.getLast hisne, (List.dropLast_append_getLast hisne).symm⟩
    rw [fibheap_delete]
    simp only [hise, if_false, List.dropLast_concat, List.getLast?_concat, hx,
      Bool.false_eq_true]
    rcases cutAt_spec hord hx with ⟨c1, c2, c3, c4, c5⟩
    rcases casc_spec qIs.reverse _ i c1 with ⟨i1, i2, i3, i4, i5⟩
    have hk2 : ∃ u, (cascading_cut (cutAt h.roots i qIs j) i qIs.reverse).get?
        h.roots.length = some u ∧ u.value = x.value := by
      have hvm := i4 h.roots.length (by rw [c3]; omega)
      rw [c5] at hvm
      cases hu : (cascading_cut (cutAt h.roots i qIs j) i qIs.reverse).get?
          h.roots.length with
      | none => rw [hu] at hvm; exact absurd hvm (by simp)
      | some u =>
        rw [hu] at hvm
        simp only [Option.map_some'] at hvm
        have hp := Option.some_inj.mp hvm
        refine ⟨u, rfl, ?_⟩
        have := congrArg Prod.fst hp
        simpa [setMarkT_value] using this
    rcases hk2 with ⟨u, hu, huv⟩
    set ts2 := cascading_cut (cutAt h.roots i qIs j) i qIs.reverse with hts2
    set k0 := h.roots.length with hk0
    have hmv : moveFront ts2 k0 = u :: eraseN k0 ts2 := by
      rw [moveFront, hu]
    have hr : ({ h with roots := moveFront ts2 k0 } : Fibheap α).roots =
        u :: eraseN k0 ts2 := hmv
    have hord1 : OrdF h.cmp ({ h with roots := moveFront ts2 k0 } : Fibheap α).roots :=
      ordF_moveFront _ i1
    refine ⟨extract_ord hc _ rfl hord1, extract_headMin hc _ rfl hord1, ?_, ?_, ?_⟩
    · have hv := extract_vals _ hr
      refine (hv.append_right _).trans ?_
      rw [← huv]
      cases u with
      | node uv um ucs =>
        have step : ((valuesL (eraseN k0 ts2) ++ valuesL ucs) ++ [uv]).Perm
            (valuesL (eraseN k0 ts2) ++ valuesT (FibTree.node uv um ucs)) := by
          rw [List.append_assoc, valuesT_node]
          exact List.Perm.append_left _
            ((List.perm_append_comm).trans (List.Perm.refl _))
        simp only [FibTree.children_node, FibTree.value_node]
        refine step.trans ?_
        refine (valuesL_eraseN hu).trans ?_
        exact i2.trans c2
    · exact extract_cmp _
    · exact extract_n _ hr

/-- Union preserves the well-formedness bundle. -/
theorem union_wf {cmp : α → α → Int} (hc : CmpOK cmp) {h1 h2 h3 : Fibheap α}
    (w1 : h1.cmp = cmp ∧ OrdF cmp h1.roots ∧ HeadMin cmp h1.roots ∧
      h1.n = (valuesL h1.roots).length)
    (w2 : h2.cmp = cmp ∧ OrdF cmp h2.roots ∧ HeadMin cmp h2.roots ∧
      h2.n = (valuesL h2.roots).length)
    (hu : fibheap_union (some h1) (some h2) = some h3) :
    h3.cmp = cmp ∧ OrdF cmp h3.roots ∧ HeadMin cmp h3.roots ∧
      h3.n = (valuesL h3.roots).length := by
  rcases w1 with ⟨e1, o1, m1min, n1⟩
  rcases w2 with ⟨e2, o2, m2min, n2⟩
  cases hr2 : h2.roots with
  | nil =>
    rw [union_empty_right _ _ hr2] at hu
    rw [← Option.some_inj.mp hu]
    exact ⟨e1, o1, m1min, n1⟩
  | cons m2 r2 =>
    cases hr1 : h1.roots with
    | nil =>
      rw [union_empty_left _ _ hr1 (by rw [hr2]; simp)] at hu
      rw [← Option.some_inj.mp hu]
      exact ⟨e2, o2, m2min, n2⟩
    | cons m1 r1 =>
      rw [union_spec h1 h2 hr1 hr2] at hu
      rw [← Option.some_inj.mp hu]
      have hvperm : (valuesL (if h1.cmp m2.value m1.value < 0 then
          m2 :: ((m1 :: r1) ++ r2) else (m1 :: r1) ++ (m2 :: r2))).Perm
          (valuesL h1.roots ++ valuesL h2.roots) := by
        rw [hr1, hr2]
        by_cases hlt : h1.cmp m2.value m1.value < 0
        · rw [if_pos hlt]
          have : valuesL (m2 :: ((m1 :: r1) ++ r2)) =
              valuesT m2 ++ (valuesL (m1 :: r1) ++ valuesL r2) := by
            rw [valuesL_cons, valuesL_append]
          rw [this, valuesL_cons]
          have step : (valuesT m2 ++ (valuesL (m1 :: r1) ++ valuesL r2)).Perm
              (valuesL (m1 :: r1) ++ (valuesT m2 ++ valuesL r2)) := by
            rw [← List.append_assoc, ← List.append_assoc]
            exact List.Perm.append_right _ List.perm_append_comm
          exact step
        · rw [if_neg hlt, valuesL_append]
      constructor
      · exact e1
      constructor
      · -- heap order of the merged forest
        intro t ht
        by_cases hlt : h1.cmp m2.value m1.value < 0
        · rw [if_pos hlt] at ht
          rcases List.mem_cons.mp ht with rfl | ht
          · exact o2 t (by rw [hr2]; simp)
          · rcases List.mem_append.mp ht with ht | ht
            · exact o1 t (by rw [hr1]; exact ht)
            · exact o2 t (by rw [hr2]; exact List.mem_cons_of_mem _ ht)
        · rw [if_neg hlt] at ht
          rcases List.mem_append.mp ht with ht | ht
          · exact o1 t (by rw [hr1]; exact ht)
          · exact o2 t (by rw [hr2]; exact ht)
      constructor
      · -- the merged head outranks every value
        rw [e1]
        intro mh hmh w hw
        have hw2 : w ∈ valuesL h1.roots ++ valuesL h2.roots := by
          rw [e1] at hvperm
          exact hvperm.mem_iff.mp hw
        have hm1 : h1.roots.head? = some m1 := by rw [hr1]; rfl
        have hm2 : h2.roots.head? = some m2 := by rw [hr2]; rfl
        by_cases hlt : cmp m2.value m1.value < 0
        · rw [if_pos hlt] at hmh
          have hmh2 : mh = m2 := by symm; simpa using hmh
          rw [hmh2]
          rcases List.mem_append.mp hw2 with hw3 | hw3
          · exact hc.lt_le_trans hlt (m1min m1 hm1 w hw3)
          · exact m2min m2 hm2 w hw3
        · rw [if_neg hlt] at hmh
          have hmh2 : mh = m1 := by
            rw [List.cons_append] at hmh
            symm
            simpa using hmh
          rw [hmh2]
          rcases List.mem_append.mp hw2 with hw3 | hw3
          · exact m1min m1 hm1 w hw3
          · exact hc.le_trans _ m2.value w (hc.le_of_not_lt hlt)
              (m2min m2 hm2 w hw3)
      · -- the count of the merged heap
        have := hvperm.length_eq
        rw [List.length_append] at this
        simp only
        omega

/-- Every reachable heap is well-formed: it keeps the construction
comparator, every tree is heap-ordered, the head of the root list outranks
every stored value, and the count equals the number of stored values. -/
theorem reachable_wf {cmp : α → α → Int} {h : Fibheap α} (hc : CmpOK cmp)
    (hr : Reachable cmp h) :
    h.cmp = cmp ∧ OrdF cmp h.roots ∧ HeadMin cmp h.roots ∧
      h.n = (valuesL h.roots).length := by
  induction hr with
  | make =>
    refine ⟨rfl, ?_, ?_, rfl⟩
    · intro t ht
      simp [make_fibheap] at ht
    · intro m hm
      simp [make_fibheap] at hm
  | insert h v hr ih =>
    rcases ih with ⟨e, o, mmin, n⟩
    refine ⟨(insert_cmp h v).trans e, insert_ord h v o, insert_headMin hc h v e o mmin, ?_⟩
    rw [insert_n, (insert_vals_perm h v).length_eq]
    simp [n]
  | extract h hr ih =>
    rcases ih with ⟨e, o, mmin, n⟩
    refine ⟨(extract_cmp h).trans e, extract_ord hc h e o, extract_headMin hc h e o, ?_⟩
    cases hro : h.roots with
    | nil =>
      rw [extract_empty h hro]
      exact n
    | cons z rest =>
      rw [extract_n h hro, (extract_vals h hro).length_eq]
      rw [hro] at n
      cases z with
      | node zv zm zcs =>
        simp only [valuesL_cons, valuesT_node, List.length_append,
          List.length_cons, FibTree.children_node] at n ⊢
        omega
  | union h1 h2 h3 hr1 hr2 hu ih1 ih2 =>
    exact union_wf hc ih1 ih2 hu
  | decrease h i is v x hr hx hpre ih =>
    rcases ih with ⟨e, o, mmin, n⟩
    have hw := decrease_wf hc h i is v x e o mmin hx hpre
    rcases hw with ⟨d1, d2, d3, d4, d5, _⟩
    refine ⟨d4.trans e, d1, d2, ?_⟩
    have := d3.length_eq
    simp only [List.length_append, List.length_cons, List.length_nil] at this
    omega
  | delete h i is x hr hx ih =>
    rcases ih with ⟨e, o, mmin, n⟩
    have hw := delete_wf hc h i is x e o hx
    rcases hw with ⟨d1, d2, d3, d4, d5⟩
    refine ⟨d4.trans e, d1, d2, ?_⟩
    have hlen := d3.length_eq
    simp only [List.length_append, List.length_cons, List.length_nil] at hlen
    have hxin : x.value ∈ valuesL h.roots := value_mem_of_forestGet? hx
    have : 1 ≤ (valuesL h.roots).length := by
      cases hv : valuesL h.roots with
      | nil => rw [hv] at hxin; simp at hxin
      | cons a as => simp
    omega

/-! ### The extraction loop -/

theorem extractLoop_spec {cmp : α → α → Int} (hc : CmpOK cmp) :
    ∀ (fuel : Nat) (h : Fibheap α), h.cmp = cmp → OrdF cmp h.roots →
    HeadMin cmp h.roots → (valuesL h.roots).length ≤ fuel →
    (extractLoop fuel h).Perm (valuesL h.roots) ∧
    (extractLoop fuel h).Pairwise (fun a b => cmp a b ≤ 0) := by
  intro fuel
  induction fuel with
  | zero =>
    intro h e o m hlen
    have hnil : valuesL h.roots = [] :=
      List.eq_nil_of_length_eq_zero (Nat.le_zero.mp hlen)
    rw [extractLoop, hnil]
    exact ⟨List.Perm.refl _, List.Pairwise.nil⟩
  | succ fuel ih =>
    intro h e o m hlen
    cases hro : h.roots with
    | nil =>
      have hM : extractLoop (fuel + 1) h = [] := by
        simp only [extractLoop]
        rw [extract_empty h hro]
      rw [hM]
      exact ⟨List.Perm.refl _, List.Pairwise.nil⟩
    | cons z rest =>
      cases hfe : fibheap_extract_min h with
      | mk a h' =>
        have ha : a = some z := by rw [← extract_fst h hro, hfe]
        subst ha
        have h2eq : (fibheap_extract_min h).2 = h' := by rw [hfe]
        have e' : h'.cmp = cmp := by
          rw [← h2eq]
          exact (extract_cmp h).trans e
        have o' : OrdF cmp h'.roots := h2eq ▸ extract_ord hc h e o
        have m' : HeadMin cmp h'.roots := h2eq ▸ extract_headMin hc h e o
        have hv : (valuesL h'.roots).Perm (valuesL rest ++ valuesL z.children) :=
          h2eq ▸ extract_vals h hro
        simp only [extractLoop, hfe]
        have hlen' : (valuesL h'.roots).length ≤ fuel := by
          have h1 := hv.length_eq
          rw [hro] at hlen
          cases z with
          | node zv zm zcs =>
            rw [valuesL_cons, valuesT_node] at hlen
            simp only [List.length_append, List.length_cons,
              FibTree.children] at h1 hlen
            omega
        rcases ih h' e' o' m' hlen' with ⟨perm2, pair2⟩
        constructor
        · cases z with
          | node zv zm zcs =>
            refine (List.Perm.cons zv (perm2.trans hv)).trans ?_
            rw [valuesL_cons, valuesT_node, List.cons_append]
            exact List.Perm.cons zv List.perm_append_comm
        · refine List.Pairwise.cons ?_ pair2
          intro b hb
          have hb2 : b ∈ valuesL h'.roots := perm2.mem_iff.mp hb
          have hb3 : b ∈ valuesL h.roots := by
            have hb4 := hv.mem_iff.mp hb2
            rw [hro]
            cases z with
            | node zv zm zcs =>
              rw [valuesL_cons, valuesT_node, List.cons_append]
              rcases List.mem_append.mp hb4 with hb5 | hb5
              · exact List.mem_cons_of_mem _ (List.mem_append_right _ hb5)
              · exact List.mem_cons_of_mem _ (List.mem_append_left _ hb5)
          exact m z (by rw [hro]; rfl) b hb3

/-! ### The insertion loop -/

theorem foldl_insert_wf {cmp : α → α → Int} (hc : CmpOK cmp) :
    ∀ (vs : List α) (h : Fibheap α), h.cmp = cmp → OrdF cmp h.roots →
    HeadMin cmp h.roots →
    (vs.foldl fibheap_insert h).cmp = cmp ∧
    OrdF cmp (vs.foldl fibheap_insert h).roots ∧
    HeadMin cmp (vs.foldl fibheap_insert h).roots ∧
    (valuesL (vs.foldl fibheap_insert h).roots).Perm (valuesL h.roots ++ vs) := by
  intro vs
  induction vs with
  | nil =>
    intro h e o m
    exact ⟨e, o, m, by simp⟩
  | cons v vs ih =>
    intro h e o m
    rw [List.foldl_cons]
    rcases ih (fibheap_insert h v) ((insert_cmp h v).trans e) (insert_ord h v o)
      (insert_headMin hc h v e o m) with ⟨e1, o1, m1, p1⟩
    refine ⟨e1, o1, m1, ?_⟩
    refine p1.trans ?_
    refine ((insert_vals_perm h v).append_right vs).trans ?_
    rw [List.cons_append]
    exact List.perm_middle.symm

/-! ### Claim C1 -/

/-- C1: inserting any finite multiset of values into a heap fresh from
`make_fibheap cmp` (for a consistent comparator) and then extracting until
the heap reports empty returns exactly that multiset, in non-decreasing
priority order under the comparator — a comparator-sort of the input. -/
theorem sorted_extraction {cmp : α → α → Int} (hc : CmpOK cmp) (vs : List α) :
    (extractAll (insertAll cmp vs)).Perm vs ∧
    (extractAll (insertAll cmp vs)).Pairwise (fun a b => cmp a b ≤ 0) := by
  have o0 : OrdF cmp (make_fibheap cmp).roots := by
    intro t ht
    simp [make_fibheap] at ht
  have m0 : HeadMin cmp (make_fibheap cmp).roots := by
    intro mh hmh
    simp [make_fibheap] at hmh
  rcases foldl_insert_wf hc vs (make_fibheap cmp) rfl o0 m0 with ⟨e, o, m, p⟩
  rw [insertAll] at *
  have pv : (valuesL (vs.foldl fibheap_insert (make_fibheap cmp)).roots).Perm vs := by
    refine p.trans ?_
    simp [make_fibheap]
  rw [extractAll]
  rcases extractLoop_spec hc
    (valuesL (vs.foldl fibheap_insert (make_fibheap cmp)).roots).length
    (vs.foldl fibheap_insert (make_fibheap cmp)) e o m (Nat.le_refl _) with
    ⟨perm1, pair1⟩
  exact ⟨perm1.trans pv, pair1⟩

/-- Witness for C1 at a concrete input. -/
theorem sorted_extraction_witness :
    (extractAll (insertAll intCmp [3, 1, 2])).Perm [3, 1, 2] ∧
    (extractAll (insertAll intCmp [3, 1, 2])).Pairwise
      (fun a b => intCmp a b ≤ 0) :=
  sorted_extraction intCmp_ok [3, 1, 2]

/-! ### Claim C2 -/

/-- C2: in every heap reachable through the public operations (decrease used
under its precondition), every parent-child edge respects the min-heap
order: the parent at `(i, qIs)` ranks no lower than its child `j`. -/
theorem heap_order_invariant {cmp : α → α → Int} {h : Fibheap α}
    (hc : CmpOK cmp) (hr : Reachable cmp h) {i j : Nat} {qIs : List Nat}
    {p x : FibTree α} (hp : forestGet? h.roots i qIs = some p)
    (hx : forestGet? h.roots i (qIs ++ [j]) = some x) :
    cmp p.value x.value ≤ 0 :=
  ordF_edge (reachable_wf hc hr).2.1 hx hp

/-! ### Claim C3 -/

/-- C3: `fibheap_union` returns the other operand when one side is absent or
empty; on two non-empty heaps the result holds exactly the values of both,
its count is the sum of the two counts, and its minimum is whichever of the
two operand minima the comparator ranks higher, the first operand's minimum
winning ties. -/
theorem union_correct :
    (∀ o : Option (Fibheap α), fibheap_union o none = o) ∧
    (∀ (o : Option (Fibheap α)) (h2 : Fibheap α), h2.roots = [] →
      fibheap_union o (some h2) = o) ∧
    (∀ h2 : Fibheap α, h2.roots ≠ [] → fibheap_union none (some h2) = some h2) ∧
    (∀ h1 h2 : Fibheap α, h1.roots = [] → h2.roots ≠ [] →
      fibheap_union (some h1) (some h2) = some h2) ∧
    (∀ (h1 h2 : Fibheap α) (m1 : FibTree α) (r1 : List (FibTree α))
      (m2 : FibTree α) (r2 : List (FibTree α)),
      h1.roots = m1 :: r1 → h2.roots = m2 :: r2 →
      ∃ h3 : Fibheap α, fibheap_union (some h1) (some h2) = some h3 ∧
        h3.n = h1.n + h2.n ∧
        (valuesL h3.roots).Perm (valuesL h1.roots ++ valuesL h2.roots) ∧
        fibheap_minimum h1 = some m1 ∧ fibheap_minimum h2 = some m2 ∧
        fibheap_minimum h3 =
          some (if h1.cmp m2.value m1.value < 0 then m2 else m1)) := by
  refine ⟨union_none_right, union_empty_right, union_none_left,
    union_empty_left, ?_⟩
  intro h1 h2 m1 r1 m2 r2 e1 e2
  refine ⟨_, union_spec h1 h2 e1 e2, rfl, ?_, ?_, ?_, ?_⟩
  · rw [e1, e2]
    by_cases hlt : h1.cmp m2.value m1.value < 0
    · simp only [hlt, if_true]
      have hs : valuesL (m2 :: ((m1 :: r1) ++ r2)) =
          valuesT m2 ++ (valuesL (m1 :: r1) ++ valuesL r2) := by
        rw [valuesL_cons, valuesL_append]
      rw [hs, valuesL_cons]
      have step : (valuesT m2 ++ (valuesL (m1 :: r1) ++ valuesL r2)).Perm
          (valuesL (m1 :: r1) ++ (valuesT m2 ++ valuesL r2)) := by
        rw [← List.append_assoc, ← List.append_assoc]
        exact List.Perm.append_right _ List.perm_append_comm
      exact step
    · simp only [hlt, if_false]
      rw [valuesL_append]
  · rw [fibheap_minimum, e1]; rfl
  · rw [fibheap_minimum, e2]; rfl
  · by_cases hlt : h1.cmp m2.value m1.value < 0
    · simp only [fibheap_minimum, hlt, if_true]; rfl
    · simp only [fibheap_minimum, hlt, if_false]; rfl

/-! ### Claim C4 -/

/-- C4: on every reachable non-empty heap, `extract_min` returns exactly the
node `minimum` reported (no stored value strictly outranks its value),
decrements the count by one, promotes the extracted node's children into the
root list it then consolidates, and the new root list again starts with a
node outranking every remaining value. -/
theorem extract_min_correct {cmp : α → α → Int} {h : Fibheap α}
    (hc : CmpOK cmp) (hr : Reachable cmp h) {z : FibTree α}
    {rest : List (FibTree α)} (hro : h.roots = z :: rest) :
    fibheap_minimum h = some z ∧
    (∀ w ∈ valuesL h.roots, cmp z.value w ≤ 0) ∧
    (fibheap_extract_min h).1 = some z ∧
    (fibheap_extract_min h).2.n + 1 = h.n ∧
    (fibheap_extract_min h).2.roots =
      (if (rest ++ z.children).isEmpty then rest ++ z.children
       else consolidate cmp (rest ++ z.children)) ∧
    (valuesL (fibheap_extract_min h).2.roots).Perm
      (valuesL rest ++ valuesL z.children) ∧
    HeadMin cmp (fibheap_extract_min h).2.roots := by
  rcases reachable_wf hc hr with ⟨e, o, m, n⟩
  refine ⟨by rw [fibheap_minimum, hro]; rfl, ?_, extract_fst h hro, ?_,
    ?_, extract_vals h hro, extract_headMin hc h e o⟩
  · intro w hw
    exact m z (by rw [hro]; rfl) w hw
  · rw [extract_n h hro]
    have hpos := @valuesL_length_pos α h.roots (by rw [hro]; simp)
    omega
  · rw [extract_roots h hro, e]

/-! ### Claim C8 -/

/-- C8: whenever `extract_min` leaves a non-empty heap behind, the roots of
the resulting forest carry pairwise distinct degrees. -/
theorem distinct_degrees {h : Fibheap α}
    (hne : (fibheap_extract_min h).2.roots ≠ []) :
    (((fibheap_extract_min h).2.roots).map FibTree.degree).Nodup := by
  cases hro : h.roots with
  | nil =>
    rw [extract_empty h hro] at hne ⊢
    exact absurd hro hne
  | cons z rest =>
    rw [extract_roots h hro] at hne ⊢
    by_cases he : (rest ++ z.children).isEmpty
    · rw [List.isEmpty_iff] at he
      rw [if_pos (by rw [he]; rfl)] at hne
      exact absurd he hne
    · rw [if_neg he]
      exact consolidate_degree_nodup h.cmp _

/-! ### Claim C10 -/

/-- C10: on every reachable heap, `fibheap_is_empty` (which inspects only
the root list) agrees with the count field: it returns true exactly when
`n = 0`. -/
theorem is_empty_iff_count_zero {cmp : α → α → Int} {h : Fibheap α}
    (hc : CmpOK cmp) (hr : Reachable cmp h) :
    fibheap_is_empty h = true ↔ h.n = 0 := by
  rcases reachable_wf hc hr with ⟨-, -, -, n⟩
  rw [fibheap_is_empty, List.isEmpty_iff]
  constructor
  · intro he
    rw [n, he, valuesL_nil]
    rfl
  · intro hn
    rw [n] at hn
    exact valuesL_eq_nil_iff.mp (List.eq_nil_of_length_eq_zero hn)

/-- Witness for C10 on the freshly made heap. -/
theorem is_empty_iff_count_zero_witness :
    fibheap_is_empty (make_fibheap intCmp) = true ↔
      (make_fibheap intCmp).n = 0 :=
  is_empty_iff_count_zero intCmp_ok Reachable.make

/-! ### Marks of roots under insert and union -/

theorem noMarked_insert (h : Fibheap α) (v : α) (hnm : NoMarkedRoot h.roots) :
    NoMarkedRoot (fibheap_insert h v).roots := by
  rw [fibheap_insert]
  cases hr : h.roots with
  | nil =>
    intro t ht
    simp at ht
    rw [ht]
    rfl
  | cons m rest =>
    have hnm' : NoMarkedRoot (m :: rest) := by rw [← hr]; exact hnm
    by_cases hlt : h.cmp v m.value < 0
    · simp only [hlt, if_true]
      intro t ht
      rcases List.mem_cons.mp ht with rfl | ht
      · rfl
      · exact hnm' t ht
    · simp only [hlt, if_false]
      intro t ht
      rcases List.mem_append.mp ht with ht | ht
      · exact hnm' t ht
      · simp at ht
        rw [ht]
        rfl

theorem noMarked_union {h1 h2 h3 : Fibheap α}
    (n1 : NoMarkedRoot h1.roots) (n2 : NoMarkedRoot h2.roots)
    (hu : fibheap_union (some h1) (some h2) = some h3) :
    NoMarkedRoot h3.roots := by
  cases hr2 : h2.roots with
  | nil =>
    rw [union_empty_right _ _ hr2] at hu
    rw [← Option.some_inj.mp hu]
    exact n1
  | cons m2 r2 =>
    cases hr1 : h1.roots with
    | nil =>
      rw [union_empty_left _ _ hr1 (by rw [hr2]; simp)] at hu
      rw [← Option.some_inj.mp hu]
      exact n2
    | cons m1 r1 =>
      rw [union_spec h1 h2 hr1 hr2] at hu
      rw [← Option.some_inj.mp hu]
      intro t ht
      by_cases hlt : h1.cmp m2.value m1.value < 0
      · rw [if_pos hlt] at ht
        rcases List.mem_cons.mp ht with rfl | ht
        · exact n2 t (by rw [hr2]; simp)
        · rcases List.mem_append.mp ht with ht | ht
          · exact n1 t (by rw [hr1]; exact ht)
          · exact n2 t (by rw [hr2]; exact List.mem_cons_of_mem _ ht)
      · rw [if_neg hlt] at ht
        rcases List.mem_append.mp ht with ht | ht
        · exact n1 t (by rw [hr1]; exact ht)
        · exact n2 t (by rw [hr2]; exact ht)

/-! ### The concrete mark-invariant trace, evaluated -/

set_option maxHeartbeats 1000000 in
theorem c7heap2_eq : c7heap2 =
    ⟨[.node 2 false [.node 4 false [.node 5 false []], .node 3 false []]],
      intCmp, 4⟩ := by
  rw [c7heap2]
  simp [insertAll, make_fibheap, fibheap_insert, fibheap_extract_min,
    consolidate, consolidatePass, whileCollide.eq_def, rebuild, rebuildStep,
    getA, setA, linkT, intCmp, FibTree.children, FibTree.degree,
    FibTree.value]

set_option maxHeartbeats 1000000 in
theorem c7heap3_eq : c7heap3 =
    ⟨[.node 2 false [.node 4 false [.node 5 false []]]], intCmp, 3⟩ := by
  rw [c7heap3, c7heap2_eq]
  simp [fibheap_delete, forestGet?, getT?, getL?, cutAt, cascading_cut,
    forestMod, modN, modT, modL, eraseN, setMarkT, removeChildT, moveFront,
    fibheap_extract_min, consolidate, consolidatePass, whileCollide.eq_def,
    rebuild, rebuildStep, getA, setA, linkT, intCmp, FibTree.children,
    FibTree.degree, FibTree.value, FibTree.mark, setMarkAt]

set_option maxHeartbeats 1000000 in
theorem c7heap4_eq : c7heap4 =
    ⟨[.node 0 false [], .node 2 false [.node 4 true []]], intCmp, 3⟩ := by
  rw [c7heap4, c7heap3_eq]
  simp [fibheap_decrease, setValAt, setValT, forestGet?, getT?, getL?, cutAt,
    cascading_cut, forestMod, modN, modT, modL, eraseN, setMarkT,
    removeChildT, setMarkAt, minUpdate, minUpdateDeep, moveFront, intCmp,
    FibTree.children, FibTree.degree, FibTree.value, FibTree.mark]

set_option maxHeartbeats 1000000 in
theorem c7heap5_eq : c7heap5 =
    ⟨[.node 2 false [.node 4 true []]], intCmp, 2⟩ := by
  rw [c7heap5, c7heap4_eq]
  simp [fibheap_extract_min, consolidate, consolidatePass, whileCollide.eq_def,
    rebuild, rebuildStep, getA, setA, linkT, intCmp, FibTree.children,
    FibTree.degree, FibTree.value]

set_option maxHeartbeats 1000000 in
theorem c7heap6_eq : c7heap6 = ⟨[.node 4 true []], intCmp, 1⟩ := by
  rw [c7heap6, c7heap5_eq]
  simp [fibheap_extract_min, consolidate, consolidatePass, whileCollide.eq_def,
    rebuild, rebuildStep, getA, setA, linkT, intCmp, FibTree.children,
    FibTree.degree, FibTree.value]

theorem c7heap2_reachable : Reachable intCmp c7heap2 := by
  show Reachable intCmp (fibheap_extract_min (insertAll intCmp [1, 2, 3, 4, 5])).2
  rw [show insertAll intCmp [1, 2, 3, 4, 5] =
      fibheap_insert (fibheap_insert (fibheap_insert (fibheap_insert
        (fibheap_insert (make_fibheap intCmp) 1) 2) 3) 4) 5 from rfl]
  exact Reachable.extract _ (Reachable.insert _ 5 (Reachable.insert _ 4
    (Reachable.insert _ 3 (Reachable.insert _ 2
      (Reachable.insert _ 1 Reachable.make)))))

/-! ### Claim C7 -/

/-- C7 (corrected): the no-marked-root invariant is preserved by insert, by
union, and by decrease on a valid node under its precondition (the cut
clears the mark of every node it promotes) — but not by `extract_min`,
whose promotion of the extracted node's children keeps their stale marks;
`marked_root_reachable` exhibits a reachable heap with a marked root. -/
theorem no_marked_root_preserved {cmp : α → α → Int} (hc : CmpOK cmp) :
    (∀ (h : Fibheap α) (v : α), NoMarkedRoot h.roots →
      NoMarkedRoot (fibheap_insert h v).roots) ∧
    (∀ h1 h2 h3 : Fibheap α, NoMarkedRoot h1.roots → NoMarkedRoot h2.roots →
      fibheap_union (some h1) (some h2) = some h3 → NoMarkedRoot h3.roots) ∧
    (∀ (h : Fibheap α) (i : Nat) (is : List Nat) (v : α) (x : FibTree α),
      h.cmp = cmp → OrdF cmp h.roots → HeadMin cmp h.roots →
      forestGet? h.roots i is = some x → cmp v x.value ≤ 0 →
      NoMarkedRoot h.roots → NoMarkedRoot (fibheap_decrease h i is v).roots) := by
  refine ⟨noMarked_insert, fun h1 h2 h3 n1 n2 hu => noMarked_union n1 n2 hu, ?_⟩
  intro h i is v x e o m hx hpre hnm
  exact (decrease_wf hc h i is v x e o m hx hpre).2.2.2.2.2 hnm

/-- Witness for C7's corrected statement: insert keeps the fresh root
unmarked. -/
theorem no_marked_root_preserved_witness :
    NoMarkedRoot (fibheap_insert (make_fibheap intCmp) 0).roots :=
  (no_marked_root_preserved intCmp_ok).1 (make_fibheap intCmp) 0
    (fun t ht => absurd ht (by simp [make_fibheap]))

/-- C7 counterexample: after insert 1..5, extract_min, delete of the child 3,
decrease of 5 to 0 (marking its parent 4), and two extractions, the heap
reachable through the public API has its single root marked — refuting the
claim that roots are never marked. -/
theorem marked_root_reachable :
    Reachable intCmp c7heap6 ∧ ¬ NoMarkedRoot c7heap6.roots := by
  constructor
  · have h3 : Reachable intCmp c7heap3 :=
      Reachable.delete c7heap2 0 [1] (.node 3 false []) c7heap2_reachable
        (by rw [c7heap2_eq]; rfl)
    have h4 : Reachable intCmp c7heap4 :=
      Reachable.decrease c7heap3 0 [0, 0] 0 (.node 5 false []) h3
        (by rw [c7heap3_eq]; rfl) (by decide)
    exact Reachable.extract _ (Reachable.extract _ h4)
  · intro hnm
    have hm := hnm (.node 4 true []) (by rw [c7heap6_eq]; simp)
    simp [FibTree.mark] at hm

/-- Witness for C2 on a concrete reachable heap: the consolidated tree
`2 → [4 → [5], 3]` has `compare(2, 3) ≤ 0` along its root→child edge. -/
theorem heap_order_invariant_witness : intCmp 2 3 ≤ 0 :=
  @heap_order_invariant Int intCmp c7heap2 intCmp_ok c7heap2_reachable 0 1 []
    (.node 2 false [.node 4 false [.node 5 false []], .node 3 false []])
    (.node 3 false [])
    (by rw [c7heap2_eq]; rfl) (by rw [c7heap2_eq]; rfl)

/-- Witness for C3 on two concrete singleton heaps. -/
theorem union_correct_witness :
    ∃ h3 : Fibheap Int,
      fibheap_union (some ⟨[FibTree.node 1 false []], intCmp, 1⟩)
          (some ⟨[FibTree.node 0 false []], intCmp, 1⟩) = some h3 ∧
        h3.n = 1 + 1 ∧
        (valuesL h3.roots).Perm ([1] ++ [0]) ∧
        fibheap_minimum (⟨[FibTree.node 1 false []], intCmp, 1⟩ : Fibheap Int) =
          some (FibTree.node 1 false []) ∧
        fibheap_minimum (⟨[FibTree.node 0 false []], intCmp, 1⟩ : Fibheap Int) =
          some (FibTree.node 0 false []) ∧
        fibheap_minimum h3 =
          some (if intCmp 0 1 < 0 then FibTree.node 0 false []
                else FibTree.node 1 false []) :=
  union_correct.2.2.2.2 _ _ _ _ _ _ rfl rfl

/-- Witness for C4 on the concrete heap holding 2 and 1. -/
theorem extract_min_correct_witness :
    fibheap_minimum (insertAll intCmp [2, 1]) = some (.node 1 false []) ∧
    (∀ w ∈ valuesL (insertAll intCmp [2, 1]).roots, intCmp 1 w ≤ 0) ∧
    (fibheap_extract_min (insertAll intCmp [2, 1])).1 =
      some (.node 1 false []) ∧
    (fibheap_extract_min (insertAll intCmp [2, 1])).2.n + 1 =
      (insertAll intCmp [2, 1]).n ∧
    (fibheap_extract_min (insertAll intCmp [2, 1])).2.roots =
      (if (([FibTree.node 2 false []] : List (FibTree Int)) ++ []).isEmpty
       then ([FibTree.node 2 false []] : List (FibTree Int)) ++ []
       else consolidate intCmp ([FibTree.node 2 false []] ++ [])) ∧
    (valuesL (fibheap_extract_min (insertAll intCmp [2, 1])).2.roots).Perm
      (valuesL [FibTree.node 2 false []] ++
        valuesL ([] : List (FibTree Int))) ∧
    HeadMin intCmp (fibheap_extract_min (insertAll intCmp [2, 1])).2.roots := by
  rw [show insertAll intCmp [2, 1] =
      fibheap_insert (fibheap_insert (make_fibheap intCmp) 2) 1 from rfl]
  exact extract_min_correct intCmp_ok
    (Reachable.insert _ 1 (Reachable.insert _ 2 Reachable.make))
    (show _ = FibTree.node 1 false [] :: [FibTree.node 2 false []] from rfl)

/-- Witness for C8: extracting from the 1..5 heap leaves the single
consolidated root, whose degree list is trivially duplicate-free. -/
theorem distinct_degrees_witness :
    (((fibheap_extract_min (insertAll intCmp [1, 2, 3, 4, 5])).2.roots).map
      FibTree.degree).Nodup :=
  distinct_degrees (by
    rw [show (fibheap_extract_min (insertAll intCmp [1, 2, 3, 4, 5])).2
        = c7heap2 from rfl, c7heap2_eq]
    simp)

/-! ### Claim C9: the cascading cut against its specification -/

theorem getT?_modT_none {f : FibTree α → FibTree α} :
    ∀ (is : List Nat) (t : FibTree α), getT? is t = none →
    getT? is (modT f is t) = none := by
  intro is
  induction is with
  | nil =>
    intro t h
    rw [getT?_nil] at h
    exact absurd h (by simp)
  | cons j is ih =>
    intro t h
    cases t with
    | node v m cs =>
      rw [getT?_cons] at h
      rw [modT_cons, getT?_cons]
      cases hc : cs.get? j with
      | none =>
        rw [modN_get_self, hc]
        rfl
      | some c =>
        rw [hc] at h
        rw [modN_get_self, hc]
        exact ih c h

/-- A cut at `(qIs, j)` leaves the existence and the mark of the node at
every prefix of `qIs` unchanged (only its child list at the very end, and
the appended new root, differ). -/
theorem cutAt_mark_above {ts : List (FibTree α)} {i j : Nat}
    {p qIs : List Nat} (hpre : p.IsPrefix qIs) :
    (forestGet? (cutAt ts i qIs j) i p).map FibTree.mark =
      (forestGet? ts i p).map FibTree.mark := by
  rw [cutAt]
  cases hx : forestGet? ts i (qIs ++ [j]) with
  | none => rfl
  | some x =>
    have hi : i < ts.length := by
      rcases forestGet?_eq_some hx with ⟨t, ht, _⟩
      exact get?_lt_length ht
    rw [forestGet?, forestGet?]
    rw [List.get?_append (by rw [forestMod_length]; exact hi)]
    rw [forestMod, modN_get_self]
    obtain ⟨r, rfl⟩ := hpre
    cases ht : ts.get? i with
    | none => rfl
    | some t =>
      simp only [Option.map_some']
      rw [modT_append]
      cases hgt : getT? p t with
      | none =>
        rw [getT?_modT_none p t hgt]
      | some u =>
        rw [getT?_modT_self p t u hgt]
        simp only [Option.map_some']
        rw [modT_mark_pres (Or.inr (removeChildT_mark j)) u]

/-- `cascading_cut` computes the walk `cascadeSpecGo` describes, as long as
the current forest agrees with the reference forest `orig` on the existence
and the mark of every ancestor it can still visit. -/
theorem cascading_cut_eq_specGo {orig : List (FibTree α)} :
    ∀ (isRev : List Nat) (ts : List (FibTree α)) (i : Nat),
    (∀ p : List Nat, p.IsPrefix isRev.reverse →
      (forestGet? ts i p).map FibTree.mark =
        (forestGet? orig i p).map FibTree.mark) →
    cascading_cut ts i isRev = cascadeSpecGo orig ts i isRev := by
  intro isRev
  induction isRev with
  | nil =>
    intro ts i hinv
    rw [cascading_cut, cascadeSpecGo]
  | cons j restRev ih =>
    intro ts i hinv
    have hmk := hinv (restRev.reverse ++ [j])
      (by rw [List.reverse_cons])
    cases ho : forestGet? orig i (restRev.reverse ++ [j]) with
    | none =>
      have hts : forestGet? ts i (restRev.reverse ++ [j]) = none := by
        rw [ho] at hmk
        simpa using hmk
      simp only [cascading_cut, cascadeSpecGo, hts, ho]
    | some y =>
      obtain ⟨y2, hts, hm2⟩ : ∃ y2,
          forestGet? ts i (restRev.reverse ++ [j]) = some y2 ∧
          y2.mark = y.mark := by
        rw [ho] at hmk
        cases hts : forestGet? ts i (restRev.reverse ++ [j]) with
        | none =>
          rw [hts] at hmk
          simp at hmk
        | some y2 =>
          rw [hts] at hmk
          simp at hmk
          exact ⟨y2, rfl, hmk⟩
      simp only [cascading_cut, cascadeSpecGo, hts, ho, hm2]
      by_cases hy : y.mark = true
      · simp only [hy, if_true]
        refine ih (cutAt ts i restRev.reverse j) i ?_
        intro p hp
        rw [cutAt_mark_above hp]
        exact hinv p (hp.trans
          (by rw [List.reverse_cons]; exact List.prefix_append _ _))
      · rw [Bool.not_eq_true] at hy
        simp [hy]

/-- C9: on every forest and every ancestor path (the reversed child path of
the node the C walks up from), `cascading_cut` — a structurally terminating
walk over the finite acyclic ancestor chain of the forest — has exactly the
specified effect: testing the ORIGINAL forest's marks, it cuts the maximal
chain of marked proper ancestors one by one into the root list (each cut
node unmarked, its parent losing that child), then stops unchanged at a
root, or marks the first unmarked non-root ancestor. -/
theorem cascading_cut_correct (ts : List (FibTree α)) (i : Nat)
    (isRev : List Nat) :
    cascading_cut ts i isRev = cascadeSpecGo ts ts i isRev :=
  cascading_cut_eq_specGo isRev ts i (fun p hp => rfl)

end FibM

namespace FibP

/-! ### Claim C5 -/

/-- C5 (corrected): on every empty heap state, `fibheap_extract_min` does
return the `NULL` sentinel and leaves the state untouched; but
`fibheap_minimum` performs no emptiness check — it returns
`container_of(h->root_list.next, ...)`, here the heap's own root-list cell
address, which is non-null and is not any node. -/
theorem minimum_extract_on_empty {α : Type} (cmp : α → α → Int) (fuel : Nat)
    (st : St α) (he : fibheap_is_empty st = true) :
    fibheap_extract_min cmp fuel st = (none, st) ∧
    fibheap_minimum st = rootA ∧ rootA ≠ nullA ∧ nodeOf? rootA = none := by
  refine ⟨?_, ?_, by decide, by decide⟩
  · rw [fibheap_extract_min]
    simp [he]
  · have h2 : st.nxt rootA = rootA := by
      have h3 := he
      simp [fibheap_is_empty, list_empty] at h3
      exact h3
    rw [fibheap_minimum, h2]

/-- Witness for C5's corrected statement on the freshly made empty heap. -/
theorem minimum_extract_on_empty_witness :
    fibheap_is_empty (make_fibheap (emptySt (0 : Int))) = true ∧
    (fibheap_extract_min FibM.intCmp 3 (make_fibheap (emptySt (0 : Int))) =
        (none, make_fibheap (emptySt (0 : Int))) ∧
      fibheap_minimum (make_fibheap (emptySt (0 : Int))) = rootA ∧
      rootA ≠ nullA ∧ nodeOf? rootA = none) :=
  ⟨by decide, minimum_extract_on_empty FibM.intCmp 3 _ (by decide)⟩

/-- C5 counterexample: `fibheap_minimum` on the empty heap fresh from
`make_fibheap` does not return the empty/sentinel result: the pointer it
returns is non-null and is no node of the heap. -/
theorem minimum_empty_not_sentinel :
    fibheap_minimum (make_fibheap (emptySt (0 : Int))) ≠ nullA ∧
    nodeOf? (fibheap_minimum (make_fibheap (emptySt (0 : Int)))) = none := by
  constructor <;> decide

/-! ### Claim C6 -/

set_option maxHeartbeats 2000000 in
/-- C6 (corrected): the extracted node's references are not severed.  For
EVERY non-empty heap, `extract_min` returns the minimum node with its child
collection intact — the returned tree still lists all of its former
children, and every one of their values remains in the heap it left behind
(the forest model carries the child references of the returned node
verbatim, exactly as the C returns `z` without touching `z->child`).  At
the pointer level (the three-node heap `a, b, c`, `a` kept at the head on
insertion and `b` outranking `c`, so `b` roots the tree with child `c`
after the first extraction), the node returned by the second `extract_min`
has its parent reference clear, but its child pointer and its sibling
`next` still reference the list cell of the node left at the head of the
heap, and its sibling `prev` still references the heap's own root-list
cell: none of the four structural references is cleared. -/
theorem extract_min_stale_links {α : Type} :
    (∀ (h : FibM.Fibheap α) (z : FibM.FibTree α)
      (rest : List (FibM.FibTree α)), h.roots = z :: rest →
      (FibM.fibheap_extract_min h).1 = some z ∧
      ∀ w ∈ FibM.valuesL z.children,
        w ∈ FibM.valuesL (FibM.fibheap_extract_min h).2.roots) ∧
    (∀ (cmp : α → α → Int) (a b c : α),
      ¬ cmp b a < 0 → ¬ cmp c a < 0 → cmp b c < 0 →
      (abcAfter2 cmp a b c).1 = some 1 ∧
      (abcAfter2 cmp a b c).2.parent 1 = none ∧
      (abcAfter2 cmp a b c).2.nxt (childA 1) = listA 2 ∧
      (abcAfter2 cmp a b c).2.nxt (listA 1) = listA 2 ∧
      (abcAfter2 cmp a b c).2.prv (listA 1) = rootA ∧
      (abcAfter2 cmp a b c).2.nxt rootA = listA 2) := by
  constructor
  · intro h z rest hro
    refine ⟨FibM.extract_fst h hro, ?_⟩
    intro w hw
    exact (FibM.extract_vals h hro).mem_iff.mpr (List.mem_append_right _ hw)
  · intro cmp a b c hba hca hbc
    simp [abcAfter2, abcAfter1, buildABC, make_fibheap, make_fibheap_node,
      fibheap_insert, fibheap_is_empty, list_empty, list_add, list_add_tail,
      list_del, list_move, listAddRaw, upd, emptySt, minIdx,
      fibheap_extract_min, promoteGo, consolidate, consLoopGo,
      collideGo.eq_def, rebuildStepP, getAN, setAN, link, listA, childA,
      rootA, hba, hca, hbc]

/-- Witness for C6's corrected statement: the universal part at the
two-node heap `1 → [2]`, the pointer part at the integer comparator. -/
theorem extract_min_stale_links_witness :
    ((FibM.fibheap_extract_min (⟨[FibM.FibTree.node 1 false
          [FibM.FibTree.node 2 false []]], FibM.intCmp, 2⟩ :
        FibM.Fibheap Int)).1 =
      some (FibM.FibTree.node 1 false [FibM.FibTree.node 2 false []]) ∧
      ∀ w ∈ FibM.valuesL (FibM.FibTree.node (1 : Int) false
          [FibM.FibTree.node 2 false []]).children,
        w ∈ FibM.valuesL (FibM.fibheap_extract_min
          (⟨[FibM.FibTree.node 1 false [FibM.FibTree.node 2 false []]],
            FibM.intCmp, 2⟩ : FibM.Fibheap Int)).2.roots) ∧
    ((abcAfter2 FibM.intCmp 1 2 3).1 = some 1 ∧
      (abcAfter2 FibM.intCmp 1 2 3).2.parent 1 = none ∧
      (abcAfter2 FibM.intCmp 1 2 3).2.nxt (childA 1) = listA 2 ∧
      (abcAfter2 FibM.intCmp 1 2 3).2.nxt (listA 1) = listA 2 ∧
      (abcAfter2 FibM.intCmp 1 2 3).2.prv (listA 1) = rootA ∧
      (abcAfter2 FibM.intCmp 1 2 3).2.nxt rootA = listA 2) :=
  ⟨extract_min_stale_links.1 _ _ _ rfl,
    extract_min_stale_links.2 FibM.intCmp 1 2 3 (by decide) (by decide)
      (by decide)⟩

set_option maxHeartbeats 2000000 in
/-- C6 counterexample: after the second extraction from the `1, 2, 3` heap,
the returned node `1` still holds a child pointer and a sibling `next`
pointer to the list cell of node `2` — and node `2` is still in the heap
(it heads the root list) — while its sibling `prev` still points at the
heap's root-list cell.  The returned node's structural references are not
all severed. -/
theorem extract_min_links_not_severed :
    (abcAfter2 FibM.intCmp 1 2 3).1 = some 1 ∧
    (abcAfter2 FibM.intCmp 1 2 3).2.nxt (childA 1) = listA 2 ∧
    (abcAfter2 FibM.intCmp 1 2 3).2.nxt (listA 1) = listA 2 ∧
    (abcAfter2 FibM.intCmp 1 2 3).2.prv (listA 1) = rootA ∧
    (abcAfter2 FibM.intCmp 1 2 3).2.nxt rootA = listA 2 := by
  simp [abcAfter2, abcAfter1, buildABC, make_fibheap, make_fibheap_node,
    fibheap_insert, fibheap_is_empty, list_empty, list_add, list_add_tail,
    list_del, list_move, listAddRaw, upd, emptySt, minIdx, FibM.intCmp,
    fibheap_extract_min, promoteGo, consolidate, consLoopGo, collideGo.eq_def,
    rebuildStepP, getAN, setAN, link, listA, childA, rootA]

end FibP
